import Mathlib

/-!
Verification development for the optimization repository.

The repository builds small constraint and linear models in notebooks and
delegates solving to an external library.  The specification describes the
minimal finite-domain constraint engine that those notebooks exercise:
a domain store with undo, not-equal / all-different / linear-equality
propagators, a fixpoint propagation loop, depth-first backtracking search
with first-solution, all-solutions and branch-and-bound modes, and an
error taxonomy where only an invalid model is a true error.

The engine below is modelled from that specification (the solver itself is
not part of the repository sources); the concrete models, recorded outputs
and counts are taken from the notebook sources.
-/

set_option maxRecDepth 200000
set_option maxHeartbeats 2000000

namespace CPCore

/-- Modelled from the spec: a domain is the ordered set of admissible
integer values of one variable. -/
abbrev Domain := List Int

/-- Modelled from the spec: the per-variable domains of the store,
indexed by variable id. -/
abbrev Doms := List Domain

/-- Modelled from the spec: a total assignment, value per variable id. -/
abbrev Assignment := List Int

/-- Modelled from the spec: a variable has a name and initial bounds. -/
structure FDVar where
  name : String
  lo : Int
  hi : Int
deriving DecidableEq, Repr

/-- Modelled from the spec: the three constraint variants
(not-equal, all-different, linear equality over coefficient/variable terms). -/
inductive Constr where
  | notEq (i j : Nat)
  | allDiff (vs : List Nat)
  | linEq (terms : List (Int × Nat)) (rhs : Int)
deriving DecidableEq, Repr

/-- Modelled from the spec: a model is variables, constraints and an
optional linear objective expression. -/
structure Model where
  vars : List FDVar
  constrs : List Constr
  objective : Option (List (Int × Nat))
deriving Repr

/-- Domain of variable `i` (empty when out of range). -/
def getDom : Doms → Nat → Domain
  | [], _ => []
  | d :: _, 0 => d
  | _ :: ds, n + 1 => getDom ds n

/-- Replace the domain of variable `i` (no-op when out of range). -/
def setDom : Doms → Nat → Domain → Doms
  | [], _, _ => []
  | _ :: ds, 0, d => d :: ds
  | d0 :: ds, n + 1, d => d0 :: setDom ds n d

/-- Value of variable `i` under an assignment (0 when out of range). -/
def getVal : Assignment → Nat → Int
  | [], _ => 0
  | v :: _, 0 => v
  | _ :: a, n + 1 => getVal a n

/-- The single value of a singleton domain. -/
def fixedVal? : Domain → Option Int
  | [v] => some v
  | _ => none

def listMin : List Int → Int
  | [] => 0
  | x :: xs => xs.foldl min x

def listMax : List Int → Int
  | [] => 0
  | x :: xs => xs.foldl max x

/-- Minimum of `c * v` over `v` in the domain of the term's variable. -/
def termMin (ds : Doms) (t : Int × Nat) : Int :=
  if 0 ≤ t.1 then t.1 * listMin (getDom ds t.2) else t.1 * listMax (getDom ds t.2)

/-- Maximum of `c * v` over `v` in the domain of the term's variable. -/
def termMax (ds : Doms) (t : Int × Nat) : Int :=
  if 0 ≤ t.1 then t.1 * listMax (getDom ds t.2) else t.1 * listMin (getDom ds t.2)

/-- Lower interval bound of a linear expression over current domains. -/
def sumMin (terms : List (Int × Nat)) (ds : Doms) : Int := (terms.map (termMin ds)).sum

/-- Upper interval bound of a linear expression over current domains. -/
def sumMax (terms : List (Int × Nat)) (ds : Doms) : Int := (terms.map (termMax ds)).sum

/-- Modelled from the spec: NotEqual pruning — when `i` is fixed to `v`,
remove `v` from the domain of `j`; fail when that empties it. -/
def pruneNeq (i j : Nat) (ds : Doms) : Option Doms :=
  match fixedVal? (getDom ds i) with
  | some v =>
      let dj2 := (getDom ds j).filter (fun w => w ≠ v)
      if dj2.isEmpty then none else some (setDom ds j dj2)
  | none => some ds

/-- Modelled from the spec: the NotEqual propagator prunes in both directions. -/
def propNotEq (i j : Nat) (ds : Doms) : Option Doms :=
  match pruneNeq i j ds with
  | none => none
  | some ds1 => pruneNeq j i ds1

/-- Collect the values of fixed variables among `vs`; fail when two
variables are fixed to the same value. -/
def fixedValsAux (ds : Doms) : List Nat → List Int → Option (List Int)
  | [], acc => some acc
  | i :: is, acc =>
    match fixedVal? (getDom ds i) with
    | some v => if acc.contains v then none else fixedValsAux ds is (v :: acc)
    | none => fixedValsAux ds is acc

def fixedVals (vs : List Nat) (ds : Doms) : Option (List Int) := fixedValsAux ds vs []

/-- Remove the collected fixed values from every non-fixed variable in `vs`. -/
def pruneDiffAux (fvs : List Int) : List Nat → Doms → Option Doms
  | [], ds => some ds
  | j :: js, ds =>
    let dj := getDom ds j
    match fixedVal? dj with
    | some _ => pruneDiffAux fvs js ds
    | none =>
      let dj2 := dj.filter (fun w => ¬ fvs.contains w)
      if dj2.isEmpty then none else pruneDiffAux fvs js (setDom ds j dj2)

/-- Modelled from the spec: the minimal AllDifferent propagator removes each
fixed variable's value from all other scoped variables' domains. -/
def propAllDiff (vs : List Nat) (ds : Doms) : Option Doms :=
  match fixedVals vs ds with
  | none => none
  | some fvs => pruneDiffAux fvs vs ds

/-- Prune each term's variable to the sub-range consistent with the slack
computed from the entry domains. -/
def pruneTerms (rhs lo hi : Int) (entry : Doms) : List (Int × Nat) → Doms → Option Doms
  | [], ds => some ds
  | t :: ts, ds =>
    let restLo := lo - termMin entry t
    let restHi := hi - termMax entry t
    let d2 := (getDom ds t.2).filter (fun v => restLo + t.1 * v ≤ rhs ∧ rhs ≤ restHi + t.1 * v)
    if d2.isEmpty then none
    else pruneTerms rhs lo hi entry ts (setDom ds t.2 d2)

/-- Modelled from the spec: the LinearEquality propagator maintains the
achievable `[min, max]` sum and prunes each variable to the consistent
sub-range; fails when the achievable range excludes the target. -/
def propLinEq (terms : List (Int × Nat)) (rhs : Int) (ds : Doms) : Option Doms :=
  let lo := sumMin terms ds
  let hi := sumMax terms ds
  if rhs < lo ∨ hi < rhs then none
  else pruneTerms rhs lo hi ds terms ds

def propagateConstr (c : Constr) (ds : Doms) : Option Doms :=
  match c with
  | .notEq i j => propNotEq i j ds
  | .allDiff vs => propAllDiff vs ds
  | .linEq terms rhs => propLinEq terms rhs ds

/-- One pass applying every constraint once. -/
def propagateAll : List Constr → Doms → Option Doms
  | [], ds => some ds
  | c :: cs, ds =>
    match propagateConstr c ds with
    | none => none
    | some ds2 => propagateAll cs ds2

/-- Total number of remaining candidate values. -/
def domSize (ds : Doms) : Nat := (ds.map List.length).sum

/-- Modelled from the spec: the propagation engine loops over all
constraints until an iteration produces no domain change (fixpoint) or a
failure is detected. -/
def propagateFix (fuel : Nat) (cs : List Constr) (ds : Doms) : Option Doms :=
  match fuel with
  | 0 => some ds
  | f + 1 =>
    match propagateAll cs ds with
    | none => none
    | some ds2 => if domSize ds2 = domSize ds then some ds2 else propagateFix f cs ds2

/-- Modelled from the spec: default variable ordering — the first variable
in declaration order whose domain still has more than one value. -/
def chooseVar : Doms → Option Nat
  | [] => none
  | d :: rest => if d.length > 1 then some 0 else (chooseVar rest).map (· + 1)

/-- Extract the assignment when every domain is a singleton. -/
def allFixed? : Doms → Option Assignment
  | [] => some []
  | d :: ds =>
    match fixedVal? d, allFixed? ds with
    | some v, some a => some (v :: a)
    | _, _ => none

/-- Value of a linear expression under a total assignment. -/
def termsSum (a : Assignment) (terms : List (Int × Nat)) : Int :=
  (terms.map (fun t => t.1 * getVal a t.2)).sum

/-- The relation a constraint denotes on total assignments. -/
def constrSat (a : Assignment) : Constr → Prop
  | .notEq i j => getVal a i ≠ getVal a j
  | .allDiff vs => (vs.map (fun i => getVal a i)).Nodup
  | .linEq terms rhs => termsSum a terms = rhs

instance instDecConstrSat (a : Assignment) : (c : Constr) → Decidable (constrSat a c)
  | .notEq i j => inferInstanceAs (Decidable (getVal a i ≠ getVal a j))
  | .allDiff vs => inferInstanceAs (Decidable ((vs.map (fun i => getVal a i)).Nodup))
  | .linEq terms rhs => inferInstanceAs (Decidable (termsSum a terms = rhs))

/-- An assignment satisfying every constraint of the list. -/
def satAll (cs : List Constr) (a : Assignment) : Prop := ∀ c ∈ cs, constrSat a c

instance (cs : List Constr) (a : Assignment) : Decidable (satAll cs a) :=
  List.decidableBAll _ cs

/-- Modelled from the spec: depth-first all-solutions search — propagate to
fixpoint, pick the first unbound variable, branch over its values in
ascending order, emit the assignment at all-singleton nodes. -/
def search (fuel : Nat) (cs : List Constr) (ds : Doms) : List Assignment :=
  match fuel with
  | 0 => []
  | f + 1 =>
    match propagateFix (domSize ds + 1) cs ds with
    | none => []
    | some ds2 =>
      match chooseVar ds2 with
      | none =>
        match allFixed? ds2 with
        | some a => if satAll cs a then [a] else []
        | none => []
      | some i => (getDom ds2 i).flatMap (fun v => search f cs (setDom ds2 i [v]))

/-- Modelled from the spec: first-solution search stops after the first
emission. -/
def searchFirst (fuel : Nat) (cs : List Constr) (ds : Doms) : Option Assignment :=
  match fuel with
  | 0 => none
  | f + 1 =>
    match propagateFix (domSize ds + 1) cs ds with
    | none => none
    | some ds2 =>
      match chooseVar ds2 with
      | none =>
        match allFixed? ds2 with
        | some a => if satAll cs a then some a else none
        | none => none
      | some i =>
        (getDom ds2 i).foldl (fun acc v =>
          match acc with
          | some a => some a
          | none => searchFirst f cs (setDom ds2 i [v])) none

def objVal (obj : List (Int × Nat)) (a : Assignment) : Int := termsSum a obj

/-- Bound test of branch and bound: the node cannot beat the incumbent. -/
def boundedOut (best : Option (Assignment × Int)) (ub : Int) : Bool :=
  match best with
  | some (_, b) => decide (ub ≤ b)
  | none => false

/-- Modelled from the spec: branch-and-bound maximization — after each
solution the incumbent tightens the bound `objective > bestSoFar`. -/
def searchBB (fuel : Nat) (cs : List Constr) (obj : List (Int × Nat)) (ds : Doms)
    (best : Option (Assignment × Int)) : Option (Assignment × Int) :=
  match fuel with
  | 0 => best
  | f + 1 =>
    match propagateFix (domSize ds + 1) cs ds with
    | none => best
    | some ds2 =>
      if boundedOut best (sumMax obj ds2) then best
      else
        match chooseVar ds2 with
        | none =>
          match allFixed? ds2 with
          | some a =>
            if satAll cs a then
              match best with
              | some (b, w) => if w < objVal obj a then some (a, objVal obj a) else some (b, w)
              | none => some (a, objVal obj a)
            else best
          | none => best
        | some i =>
          (getDom ds2 i).foldl (fun best v => searchBB f cs obj (setDom ds2 i [v]) best) best

/-- The contiguous integer range `[lo, hi]` as an ascending list. -/
def rangeList (lo hi : Int) : List Int :=
  (List.range (hi + 1 - lo).toNat).map (fun k => lo + (Nat.cast k : Int))

/-- Modelled from the spec: initial domains are the variables' bounds. -/
def initDoms (m : Model) : Doms := m.vars.map (fun v => rangeList v.lo v.hi)

/-- Build-time scope check: every referenced variable is declared. -/
def constrScopeOk (n : Nat) : Constr → Bool
  | .notEq i j => decide (i < n) && decide (j < n)
  | .allDiff vs => vs.all (fun i => decide (i < n))
  | .linEq terms _ => terms.all (fun t => decide (t.2 < n))

/-- Modelled from the spec: model validation at build time — constraint
scopes reference declared variables and bounds satisfy `lo ≤ hi`. -/
def validModel (m : Model) : Bool :=
  m.constrs.all (constrScopeOk m.vars.length) &&
  m.vars.all (fun v => decide (v.lo ≤ v.hi)) &&
  (match m.objective with
   | some obj => obj.all (fun t => decide (t.2 < m.vars.length))
   | none => true)

/-- Modelled from the spec: the three search modes. -/
inductive Mode where
  | firstSolution
  | allSolutions
  | optMax
  | optMin
deriving DecidableEq, Repr

/-- Modelled from the spec: result statuses; `modelInvalid` is the only
error condition, the others are normal outcomes. -/
inductive Status where
  | modelInvalid
  | feasible
  | optimal
  | infeasible
  | unknown
deriving DecidableEq, Repr

/-- Modelled from the spec: the outcome of a solve call. -/
structure Outcome where
  status : Status
  solutions : List Assignment
  objectiveValue : Option Int
deriving DecidableEq, Repr

def solveValid (m : Model) (mode : Mode) : Outcome :=
  let ds := initDoms m
  let cs := m.constrs
  let fuel := domSize ds + 1
  match mode with
  | .firstSolution =>
    match searchFirst fuel cs ds with
    | some a => ⟨.feasible, [a], none⟩
    | none => ⟨.infeasible, [], none⟩
  | .allSolutions =>
    let sols := search fuel cs ds
    ⟨if sols.isEmpty then .infeasible else .feasible, sols, none⟩
  | .optMax =>
    match searchBB fuel cs (m.objective.getD []) ds none with
    | some (a, v) => ⟨.optimal, [a], some v⟩
    | none => ⟨.infeasible, [], none⟩
  | .optMin =>
    match searchBB fuel cs ((m.objective.getD []).map (fun t => (-t.1, t.2))) ds none with
    | some (a, v) => ⟨.optimal, [a], some (-v)⟩
    | none => ⟨.infeasible, [], none⟩

/-- Modelled from the spec: the entry point — model validation happens at
build time, then the search runs in the requested mode; expected search
failures are recovered internally and never surface as errors. -/
def solve (m : Model) (mode : Mode) : Outcome :=
  if validModel m then solveValid m mode else ⟨.modelInvalid, [], none⟩

/-! Models built by the notebook sources. -/

/-- The feasibility model of the notebook: `x, y, z ∈ {0,1,2}`, `x ≠ y`. -/
def xyzModel : Model :=
  { vars := [⟨"x", 0, 2⟩, ⟨"y", 0, 2⟩, ⟨"z", 0, 2⟩]
    constrs := [.notEq 0 1]
    objective := none }

/-- The optimization model of the notebook: same variables and constraint,
objective `x + 2 * y + 3 * z`. -/
def xyzOptModel : Model :=
  { vars := [⟨"x", 0, 2⟩, ⟨"y", 0, 2⟩, ⟨"z", 0, 2⟩]
    constrs := [.notEq 0 1]
    objective := some [(1, 0), (2, 1), (3, 2)] }

/-- The cryptarithmetic model of the notebook: letters C,P,I,S,F,U,N,T,R,E
(ids 0..9) over base-10 digits, leading letters at least 1, all different,
and `CP + IS + FUN = TRUE` as one linear equality. -/
def cpIsFunModel : Model :=
  { vars := [⟨"C", 1, 9⟩, ⟨"P", 0, 9⟩, ⟨"I", 1, 9⟩, ⟨"S", 0, 9⟩, ⟨"F", 1, 9⟩,
             ⟨"U", 0, 9⟩, ⟨"N", 0, 9⟩, ⟨"T", 1, 9⟩, ⟨"R", 0, 9⟩, ⟨"E", 0, 9⟩]
    constrs := [.allDiff [0, 1, 2, 3, 4, 5, 6, 7, 8, 9],
                .linEq [(10, 0), (1, 1), (10, 2), (1, 3), (100, 4), (10, 5), (1, 6),
                        (-1000, 7), (-100, 8), (-10, 5), (-1, 9)] 0]
    objective := none }

/-- The 18 assignments printed by the CP-SAT all-solutions cell of the
notebook, in emission order. -/
def cpSatRecordedXyz : List Assignment :=
  [[0, 1, 0], [1, 2, 0], [1, 2, 1], [1, 2, 2], [1, 0, 2], [1, 0, 1],
   [2, 0, 1], [2, 1, 1], [2, 1, 2], [2, 0, 2], [0, 1, 2], [0, 1, 1],
   [0, 2, 1], [0, 2, 2], [1, 0, 0], [2, 0, 0], [2, 1, 0], [0, 2, 0]]

/-- The 18 assignments printed by the original CP solver's
Phase/NextSolution cell of the notebook, in emission order. -/
def phaseRecordedXyz : List Assignment :=
  [[0, 1, 0], [0, 1, 1], [0, 1, 2], [0, 2, 0], [0, 2, 1], [0, 2, 2],
   [1, 0, 0], [1, 0, 1], [1, 0, 2], [1, 2, 0], [1, 2, 1], [1, 2, 2],
   [2, 0, 0], [2, 0, 1], [2, 0, 2], [2, 1, 0], [2, 1, 1], [2, 1, 2]]

/-! Brute-force enumeration over the initial domains. -/

/-- All total assignments drawing each variable's value from its domain. -/
def allAssignments : Doms → List Assignment
  | [] => [[]]
  | d :: ds => d.flatMap (fun v => (allAssignments ds).map (fun a => v :: a))

/-- Brute force: the assignments within bounds satisfying all constraints. -/
def bruteSols (m : Model) : List Assignment :=
  (allAssignments (initDoms m)).filter (fun a => decide (satAll m.constrs a))

/-- An assignment draws every variable's value from its current domain. -/
def Supported (ds : Doms) (a : Assignment) : Prop :=
  List.Forall₂ (fun d v => v ∈ d) ds a

/-- Pointwise refinement of domain stores: every domain is a sublist of
the corresponding one (domains only shrink). -/
def DomsLe (ds1 ds2 : Doms) : Prop :=
  List.Forall₂ List.Sublist ds1 ds2

def defaultVar : FDVar := ⟨"", 0, 0⟩

/-- Declared lower bound of variable `i`. -/
def varLo (m : Model) (i : Nat) : Int := (m.vars.getD i defaultVar).lo

/-- Declared upper bound of variable `i`. -/
def varHi (m : Model) (i : Nat) : Int := (m.vars.getD i defaultVar).hi

/-! Counting apparatus for the cryptarithmetic model: every solution fixes
T = 1, R = 0 and F ∈ {8, 9}, so the solutions correspond to permutations
of the remaining seven digits satisfying the reduced equation. -/

/-- Digits available to C,P,I,S,U,N,E when F = 9. -/
def cryptoBase9 : List Int := [2, 3, 4, 5, 6, 7, 8]

/-- Digits available to C,P,I,S,U,N,E when F = 8. -/
def cryptoBase8 : List Int := [2, 3, 4, 5, 6, 7, 9]

/-- Rebuild a full assignment C,P,I,S,F,U,N,T,R,E from the seven free
values `[c, p, i, s, u, n, e]` and the value of F. -/
def embed (f : Int) (p : List Int) : List Int :=
  [getVal p 0, getVal p 1, getVal p 2, getVal p 3, f,
   getVal p 4, getVal p 5, 1, 0, getVal p 6]

/-- The cryptarithmetic equation after substituting T = 1 and R = 0,
on the seven free values `[c, p, i, s, u, n, e]`. -/
def reducedEqB (f : Int) (p : List Int) : Bool :=
  decide (10 * getVal p 0 + getVal p 1 + 10 * getVal p 2 + getVal p 3 + 100 * f
    + getVal p 5 = 1000 + getVal p 6)

/-- The candidate solutions of the cryptarithmetic model obtained from
permutations of the free digits in the two possible cases of F. -/
def cryptoWitnessList : List Assignment :=
  ((List.permutations' cryptoBase8).filter (reducedEqB 8)).map (embed 8) ++
  ((List.permutations' cryptoBase9).filter (reducedEqB 9)).map (embed 9)

/-! The undo-trail domain store of the specification. -/

/-- Modelled from the spec: the domain store holds the current domains and
an undo trail recording, for each narrowing, the variable and its previous
domain. -/
structure DomainStore where
  domains : Doms
  trail : List (Nat × Domain)
deriving DecidableEq, Repr

/-- Modelled from the spec: `mark` captures a checkpoint. -/
def mark (s : DomainStore) : Nat := s.trail.length

/-- Modelled from the spec: `narrow` replaces a variable's domain,
recording the previous domain on the undo trail; it fails with the
EmptyDomain signal when the new domain has no values. -/
def narrow (s : DomainStore) (i : Nat) (d : Domain) : Option DomainStore :=
  if d.isEmpty then none
  else some ⟨setDom s.domains i d, (i, getDom s.domains i) :: s.trail⟩

/-- Roll back trail entries in reverse order until the trail length equals
the checkpoint. -/
def restoreAux (cp : Nat) : List (Nat × Domain) → Doms → DomainStore
  | [], doms => ⟨doms, []⟩
  | (i, d) :: tr, doms =>
    if tr.length + 1 ≤ cp then ⟨doms, (i, d) :: tr⟩
    else restoreAux cp tr (setDom doms i d)

/-- Modelled from the spec: `restore` rolls back all narrowings since the
checkpoint, restoring the exact previous domains. -/
def restore (cp : Nat) (s : DomainStore) : DomainStore :=
  restoreAux cp s.trail s.domains

/-- A sequence of narrowings applied in order; stops at the first failure. -/
def applyNarrows : DomainStore → List (Nat × Domain) → Option DomainStore
  | s, [] => some s
  | s, (i, d) :: ops =>
    match narrow s i d with
    | none => none
    | some s2 => applyNarrows s2 ops

/-! Reachable store states during search. -/

/-- Modelled from the spec: the domain states reachable from the initial
domains by solver operations — fixpoint propagation and branching
narrowings.  Restoring on backtrack returns to a previously reached
state, so it introduces no further states. -/
inductive Reach (cs : List Constr) (ds0 : Doms) : Doms → Prop where
  | refl : Reach cs ds0 ds0
  | prop (ds ds2 : Doms) (fuel : Nat) :
      Reach cs ds0 ds → propagateFix fuel cs ds = some ds2 → Reach cs ds0 ds2
  | branch (ds : Doms) (i : Nat) (v : Int) :
      Reach cs ds0 ds → v ∈ getDom ds i → Reach cs ds0 (setDom ds i [v])

/-! The search engine as the explicit state machine of the specification. -/

/-- A suspended branching point: the domains at the node, the branching
variable and the values not yet tried. -/
structure Frame where
  doms : Doms
  varId : Nat
  pending : List Int
deriving DecidableEq, Repr

/-- Modelled from the spec: the states of the search engine. -/
inductive EngineState where
  | exploring (stack : List Frame) (doms : Doms) (sols : List Assignment)
  | solutionFound (stack : List Frame) (a : Assignment) (sols : List Assignment)
  | backtrack (stack : List Frame) (sols : List Assignment)
  | finished (sols : List Assignment)
deriving DecidableEq, Repr

/-- Modelled from the spec: the transition relation of the search engine
with the default variable and value ordering strategies. -/
inductive Step (cs : List Constr) : EngineState → EngineState → Prop where
  | exploreFail (st : List Frame) (ds : Doms) (sols : List Assignment) :
      propagateFix (domSize ds + 1) cs ds = none →
      Step cs (.exploring st ds sols) (.backtrack st sols)
  | exploreBranch (st : List Frame) (ds : Doms) (sols : List Assignment)
      (ds2 : Doms) (i : Nat) (v : Int) (vs : List Int) :
      propagateFix (domSize ds + 1) cs ds = some ds2 →
      chooseVar ds2 = some i → getDom ds2 i = v :: vs →
      Step cs (.exploring st ds sols)
        (.exploring (⟨ds2, i, vs⟩ :: st) (setDom ds2 i [v]) sols)
  | exploreSolution (st : List Frame) (ds : Doms) (sols : List Assignment)
      (ds2 : Doms) (a : Assignment) :
      propagateFix (domSize ds + 1) cs ds = some ds2 →
      chooseVar ds2 = none → allFixed? ds2 = some a → satAll cs a →
      Step cs (.exploring st ds sols) (.solutionFound st a sols)
  | exploreDeadEnd (st : List Frame) (ds : Doms) (sols : List Assignment) (ds2 : Doms) :
      propagateFix (domSize ds + 1) cs ds = some ds2 →
      chooseVar ds2 = none →
      (allFixed? ds2 = none ∨ ∃ a, allFixed? ds2 = some a ∧ ¬ satAll cs a) →
      Step cs (.exploring st ds sols) (.backtrack st sols)
  | emit (st : List Frame) (a : Assignment) (sols : List Assignment) :
      Step cs (.solutionFound st a sols) (.backtrack st (sols ++ [a]))
  | nextValue (ds : Doms) (i : Nat) (v : Int) (vs : List Int)
      (st : List Frame) (sols : List Assignment) :
      Step cs (.backtrack (⟨ds, i, v :: vs⟩ :: st) sols)
        (.exploring (⟨ds, i, vs⟩ :: st) (setDom ds i [v]) sols)
  | popFrame (ds : Doms) (i : Nat) (st : List Frame) (sols : List Assignment) :
      Step cs (.backtrack (⟨ds, i, ([] : List Int)⟩ :: st) sols) (.backtrack st sols)
  | finish (sols : List Assignment) :
      Step cs (.backtrack [] sols) (.finished sols)

/-- A complete run: the list of visited states from a start state to a
terminal one. -/
inductive Run (cs : List Constr) : EngineState → List EngineState → Prop where
  | last (s : EngineState) : (∀ t, ¬ Step cs s t) → Run cs s [s]
  | step (s t : EngineState) (tr : List EngineState) :
      Step cs s t → Run cs t tr → Run cs s (s :: tr)

end CPCore

namespace LpPart

/-- One bounded linear constraint of the linear program. -/
structure LpConstraint where
  lo : ℚ
  hi : ℚ
  terms : List (ℚ × Nat)

/-- The linear-program data built by the notebook source: variable bounds,
bounded linear constraints, objective coefficients and direction. -/
structure LinearProgram where
  varBounds : List (ℚ × ℚ)
  constraints : List LpConstraint
  objCoeffs : List (ℚ × Nat)
  maximize : Bool

/-- Value of a linear expression at a point. -/
def lpValue (x : List ℚ) (terms : List (ℚ × Nat)) : ℚ :=
  (terms.map (fun t => t.1 * x.getD t.2 0)).sum

def lpNumVariables (p : LinearProgram) : Nat := p.varBounds.length

def lpNumConstraints (p : LinearProgram) : Nat := p.constraints.length

/-- Feasibility: right dimension, variable bounds and constraint bounds. -/
def lpFeasible (p : LinearProgram) (x : List ℚ) : Prop :=
  x.length = p.varBounds.length ∧
  (∀ i, i < x.length →
    (p.varBounds.getD i (0, 0)).1 ≤ x.getD i 0 ∧ x.getD i 0 ≤ (p.varBounds.getD i (0, 0)).2) ∧
  ∀ c ∈ p.constraints, c.lo ≤ lpValue x c.terms ∧ lpValue x c.terms ≤ c.hi

/-- The linear program of the notebook: maximize `3x + y` subject to
`0 ≤ x ≤ 1`, `0 ≤ y ≤ 2` and `0 ≤ x + y ≤ 2`. -/
def simpleLp : LinearProgram :=
  { varBounds := [(0, 1), (0, 2)]
    constraints := [⟨0, 2, [(1, 0), (1, 1)]⟩]
    objCoeffs := [(3, 0), (1, 1)]
    maximize := true }

end LpPart

namespace CPCore

/-! Basic lemmas about the store primitives. -/

theorem length_setDom (ds : Doms) (i : Nat) (d : Domain) : (setDom ds i d).length = ds.length := by
  induction ds generalizing i with
  | nil => rfl
  | cons d0 ds ih => cases i <;> simp [setDom, ih]

theorem getDom_setDom_self {ds : Doms} {i : Nat} (h : i < ds.length) (d : Domain) :
    getDom (setDom ds i d) i = d := by
  induction ds generalizing i with
  | nil => simp at h
  | cons d0 ds ih =>
    cases i with
    | zero => rfl
    | succ n => simpa [setDom, getDom] using ih (by simpa using h)

theorem getDom_setDom_ne (i j : Nat) (h : i ≠ j) (ds : Doms) (d : Domain) :
    getDom (setDom ds i d) j = getDom ds j := by
  induction ds generalizing i j with
  | nil => rfl
  | cons d0 ds ih =>
    cases i with
    | zero => cases j with
      | zero => exact absurd rfl h
      | succ m => rfl
    | succ n => cases j with
      | zero => rfl
      | succ m => simpa [setDom, getDom] using ih n m (by omega)

theorem getDom_eq_nil_of_le {ds : Doms} {i : Nat} (h : ds.length ≤ i) : getDom ds i = [] := by
  induction ds generalizing i with
  | nil => rfl
  | cons d0 ds ih =>
    cases i with
    | zero => simp at h
    | succ n => exact ih (by simpa using h)

theorem lt_length_of_getDom_ne_nil {ds : Doms} {i : Nat} (h : getDom ds i ≠ []) :
    i < ds.length := by
  by_contra hlt
  exact h (getDom_eq_nil_of_le (by omega))

theorem setDom_of_le {ds : Doms} {i : Nat} (h : ds.length ≤ i) (d : Domain) :
    setDom ds i d = ds := by
  induction ds generalizing i with
  | nil => rfl
  | cons d0 ds ih =>
    cases i with
    | zero => simp at h
    | succ n => simp [setDom, ih (by simpa using h)]

theorem setDom_setDom (ds : Doms) (i : Nat) (d d2 : Domain) :
    setDom (setDom ds i d) i d2 = setDom ds i d2 := by
  induction ds generalizing i with
  | nil => rfl
  | cons d0 ds ih => cases i <;> simp [setDom, ih]

theorem setDom_getDom (ds : Doms) (i : Nat) : setDom ds i (getDom ds i) = ds := by
  induction ds generalizing i with
  | nil => rfl
  | cons d0 ds ih => cases i <;> simp [setDom, getDom, ih]

theorem mem_setDom {d : Domain} {ds : Doms} {i : Nat} {d0 : Domain}
    (h : d ∈ setDom ds i d0) : d = d0 ∨ d ∈ ds := by
  induction ds generalizing i with
  | nil => simp [setDom] at h
  | cons d1 ds ih =>
    cases i with
    | zero =>
      rcases List.mem_cons.1 h with h1 | h1
      · exact Or.inl h1
      · exact Or.inr (List.mem_cons_of_mem _ h1)
    | succ n =>
      rcases List.mem_cons.1 h with h1 | h1
      · exact Or.inr (h1 ▸ List.mem_cons_self _ _)
      · rcases ih h1 with h2 | h2
        · exact Or.inl h2
        · exact Or.inr (List.mem_cons_of_mem _ h2)

theorem Supported.length_eq_ds {ds : Doms} {a : Assignment} (h : Supported ds a) :
    ds.length = a.length := List.Forall₂.length_eq h

theorem Supported.getVal_mem {ds : Doms} {a : Assignment} (h : Supported ds a)
    {i : Nat} (hi : i < ds.length) : getVal a i ∈ getDom ds i := by
  induction h generalizing i with
  | nil => simp at hi
  | cons hv htail ih =>
    cases i with
    | zero => exact hv
    | succ n => exact ih (by simpa using hi)

theorem Supported.setDom {ds : Doms} {a : Assignment} (h : Supported ds a)
    {i : Nat} {d : Domain} (hd : getVal a i ∈ d) : Supported (setDom ds i d) a := by
  induction h generalizing i with
  | nil => exact List.Forall₂.nil
  | @cons d0 v ds0 a0 hv htail ih =>
    cases i with
    | zero => exact List.Forall₂.cons hd htail
    | succ n => exact List.Forall₂.cons hv (ih hd)

theorem DomsLe.refl (ds : Doms) : DomsLe ds ds :=
  List.forall₂_same.2 (fun _ _ => List.Sublist.refl _)

theorem DomsLe.trans {ds1 ds2 ds3 : Doms} (h1 : DomsLe ds1 ds2) (h2 : DomsLe ds2 ds3) :
    DomsLe ds1 ds3 := by
  induction h1 generalizing ds3 with
  | nil => cases h2; exact List.Forall₂.nil
  | cons hd htail ih =>
    cases h2 with
    | cons hd2 htail2 => exact List.Forall₂.cons (hd.trans hd2) (ih htail2)

theorem DomsLe.length_eq {ds1 ds2 : Doms} (h : DomsLe ds1 ds2) : ds1.length = ds2.length :=
  List.Forall₂.length_eq h

theorem DomsLe.getDom_sublist {ds1 ds2 : Doms} (h : DomsLe ds1 ds2) (i : Nat) :
    List.Sublist (getDom ds1 i) (getDom ds2 i) := by
  induction h generalizing i with
  | nil => exact List.Sublist.refl _
  | cons hd htail ih =>
    cases i with
    | zero => exact hd
    | succ n => exact ih n

theorem DomsLe.setDom_left {ds : Doms} {i : Nat} {d : Domain}
    (h : List.Sublist d (getDom ds i)) : DomsLe (setDom ds i d) ds := by
  induction ds generalizing i with
  | nil => exact List.Forall₂.nil
  | cons d0 ds ih =>
    cases i with
    | zero => exact List.Forall₂.cons h (DomsLe.refl ds)
    | succ n => exact List.Forall₂.cons (List.Sublist.refl _) (ih h)

theorem Supported.mono {ds1 ds2 : Doms} {a : Assignment} (hle : DomsLe ds1 ds2)
    (h : Supported ds1 a) : Supported ds2 a := by
  induction hle generalizing a with
  | nil => cases h; exact List.Forall₂.nil
  | cons hd htail ih =>
    cases h with
    | cons hv htail2 => exact List.Forall₂.cons (hd.subset hv) (ih htail2)

theorem DomsLe.domSize_le {ds1 ds2 : Doms} (h : DomsLe ds1 ds2) :
    domSize ds1 ≤ domSize ds2 := by
  induction h with
  | nil => exact Nat.le.refl
  | cons hd htail ih =>
    simp only [domSize, List.map_cons, List.sum_cons] at *
    exact Nat.add_le_add hd.length_le ih

theorem DomsLe.nodup {ds1 ds2 : Doms} (h : DomsLe ds1 ds2)
    (hnd : ∀ d ∈ ds2, d.Nodup) : ∀ d ∈ ds1, d.Nodup := by
  induction h with
  | nil => exact hnd
  | cons hd htail ih =>
    intro d hdmem
    rcases List.mem_cons.1 hdmem with rfl | hmem
    · exact hd.nodup (hnd _ (List.mem_cons_self _ _))
    · exact ih (fun x hx => hnd x (List.mem_cons_of_mem _ hx)) d hmem

theorem domSize_setDom_lt {ds : Doms} {i : Nat} (hi : i < ds.length) {d : Domain}
    (hlen : d.length < (getDom ds i).length) : domSize (setDom ds i d) < domSize ds := by
  induction ds generalizing i with
  | nil => simp at hi
  | cons d0 ds ih =>
    cases i with
    | zero =>
      simp only [setDom, domSize, List.map_cons, List.sum_cons]
      exact Nat.add_lt_add_right (by simpa [getDom] using hlen) _
    | succ n =>
      simp only [setDom, domSize, List.map_cons, List.sum_cons]
      exact Nat.add_lt_add_left (by simpa [domSize] using ih (by simpa using hi) (by simpa [getDom] using hlen)) _

end CPCore

namespace CPCore

/-! Interval bounds of linear terms. -/

theorem foldl_min_le_init (xs : List Int) (x : Int) : xs.foldl min x ≤ x := by
  induction xs generalizing x with
  | nil => exact Int.le_refl x
  | cons y ys ih => exact le_trans (ih (min x y)) (min_le_left x y)

theorem le_foldl_max_init (xs : List Int) (x : Int) : x ≤ xs.foldl max x := by
  induction xs generalizing x with
  | nil => exact Int.le_refl x
  | cons y ys ih => exact le_trans (le_max_left x y) (ih (max x y))

theorem foldl_min_le_of_mem {xs : List Int} {v : Int} (h : v ∈ xs) (x : Int) :
    xs.foldl min x ≤ v := by
  induction xs generalizing x with
  | nil => simp at h
  | cons y ys ih =>
    rcases List.mem_cons.1 h with rfl | hmem
    · exact le_trans (foldl_min_le_init ys (min x v)) (min_le_right x v)
    · exact ih hmem (min x y)

theorem le_foldl_max_of_mem {xs : List Int} {v : Int} (h : v ∈ xs) (x : Int) :
    v ≤ xs.foldl max x := by
  induction xs generalizing x with
  | nil => simp at h
  | cons y ys ih =>
    rcases List.mem_cons.1 h with rfl | hmem
    · exact le_trans (le_max_right x v) (le_foldl_max_init ys (max x v))
    · exact ih hmem (max x y)

theorem listMin_le_of_mem {l : List Int} {v : Int} (h : v ∈ l) : listMin l ≤ v := by
  cases l with
  | nil => simp at h
  | cons x xs =>
    rcases List.mem_cons.1 h with rfl | hmem
    · exact foldl_min_le_init xs v
    · exact foldl_min_le_of_mem hmem x

theorem le_listMax_of_mem {l : List Int} {v : Int} (h : v ∈ l) : v ≤ listMax l := by
  cases l with
  | nil => simp at h
  | cons x xs =>
    rcases List.mem_cons.1 h with rfl | hmem
    · exact le_foldl_max_init xs v
    · exact le_foldl_max_of_mem hmem x

theorem termMin_le {ds : Doms} {a : Assignment} (t : Int × Nat)
    (hmem : getVal a t.2 ∈ getDom ds t.2) : termMin ds t ≤ t.1 * getVal a t.2 := by
  unfold termMin
  split
  · exact mul_le_mul_of_nonneg_left (listMin_le_of_mem hmem) (by assumption)
  · exact mul_le_mul_of_nonpos_left (le_listMax_of_mem hmem) (by omega)

theorem le_termMax {ds : Doms} {a : Assignment} (t : Int × Nat)
    (hmem : getVal a t.2 ∈ getDom ds t.2) : t.1 * getVal a t.2 ≤ termMax ds t := by
  unfold termMax
  split
  · exact mul_le_mul_of_nonneg_left (le_listMax_of_mem hmem) (by assumption)
  · exact mul_le_mul_of_nonpos_left (listMin_le_of_mem hmem) (by omega)

theorem termsSum_cons (a : Assignment) (t : Int × Nat) (ts : List (Int × Nat)) :
    termsSum a (t :: ts) = t.1 * getVal a t.2 + termsSum a ts := by
  simp [termsSum]

theorem sumMin_cons (t : Int × Nat) (ts : List (Int × Nat)) (ds : Doms) :
    sumMin (t :: ts) ds = termMin ds t + sumMin ts ds := by
  simp [sumMin]

theorem sumMax_cons (t : Int × Nat) (ts : List (Int × Nat)) (ds : Doms) :
    sumMax (t :: ts) ds = termMax ds t + sumMax ts ds := by
  simp [sumMax]

theorem sumMin_le_termsSum {terms : List (Int × Nat)} {ds : Doms} {a : Assignment}
    (hsupp : Supported ds a) (hscope : ∀ t ∈ terms, t.2 < ds.length) :
    sumMin terms ds ≤ termsSum a terms := by
  induction terms with
  | nil => simp [sumMin, termsSum]
  | cons t ts ih =>
    rw [sumMin_cons, termsSum_cons]
    have h1 := termMin_le t
      (hsupp.getVal_mem (hscope t (List.mem_cons_self _ _)))
    have h2 := ih (fun u hu => hscope u (List.mem_cons_of_mem _ hu))
    omega

theorem termsSum_le_sumMax {terms : List (Int × Nat)} {ds : Doms} {a : Assignment}
    (hsupp : Supported ds a) (hscope : ∀ t ∈ terms, t.2 < ds.length) :
    termsSum a terms ≤ sumMax terms ds := by
  induction terms with
  | nil => simp [sumMax, termsSum]
  | cons t ts ih =>
    rw [sumMax_cons, termsSum_cons]
    have h1 := le_termMax t
      (hsupp.getVal_mem (hscope t (List.mem_cons_self _ _)))
    have h2 := ih (fun u hu => hscope u (List.mem_cons_of_mem _ hu))
    omega

theorem sumMin_sub_le {terms : List (Int × Nat)} {ds : Doms} {a : Assignment}
    {t : Int × Nat} (hmem : t ∈ terms) (hsupp : Supported ds a)
    (hscope : ∀ u ∈ terms, u.2 < ds.length) :
    sumMin terms ds - termMin ds t ≤ termsSum a terms - t.1 * getVal a t.2 := by
  induction terms with
  | nil => simp at hmem
  | cons u us ih =>
    have hscu : u.2 < ds.length := hscope u (List.mem_cons_self _ _)
    have hscus : ∀ w ∈ us, w.2 < ds.length := fun w hw => hscope w (List.mem_cons_of_mem _ hw)
    rcases List.mem_cons.1 hmem with rfl | hmem2
    · rw [sumMin_cons, termsSum_cons]
      have h2 := sumMin_le_termsSum hsupp hscus
      linarith
    · rw [sumMin_cons, termsSum_cons]
      have h1 := termMin_le u (hsupp.getVal_mem hscu)
      have h2 := ih hmem2 hscus
      linarith

theorem sub_le_sumMax {terms : List (Int × Nat)} {ds : Doms} {a : Assignment}
    {t : Int × Nat} (hmem : t ∈ terms) (hsupp : Supported ds a)
    (hscope : ∀ u ∈ terms, u.2 < ds.length) :
    termsSum a terms - t.1 * getVal a t.2 ≤ sumMax terms ds - termMax ds t := by
  induction terms with
  | nil => simp at hmem
  | cons u us ih =>
    have hscu : u.2 < ds.length := hscope u (List.mem_cons_self _ _)
    have hscus : ∀ w ∈ us, w.2 < ds.length := fun w hw => hscope w (List.mem_cons_of_mem _ hw)
    rcases List.mem_cons.1 hmem with rfl | hmem2
    · rw [sumMax_cons, termsSum_cons]
      have h2 := termsSum_le_sumMax hsupp hscus
      linarith
    · rw [sumMax_cons, termsSum_cons]
      have h1 := le_termMax u (hsupp.getVal_mem hscu)
      have h2 := ih hmem2 hscus
      linarith

end CPCore

namespace CPCore

/-! Inversion helpers. -/

theorem fixedVal?_eq_some {d : Domain} {v : Int} : fixedVal? d = some v ↔ d = [v] := by
  cases d with
  | nil => simp [fixedVal?]
  | cons x xs =>
    cases xs with
    | nil => simp [fixedVal?]
    | cons y ys => simp [fixedVal?]

theorem fixedVal?_of_nonempty_le_one {d : Domain} {v : Int} (hmem : v ∈ d)
    (hlen : d.length ≤ 1) : fixedVal? d = some v := by
  cases d with
  | nil => simp at hmem
  | cons x xs =>
    cases xs with
    | nil =>
      rcases List.mem_cons.1 hmem with rfl | h
      · rfl
      · simp at h
    | cons y ys => simp at hlen

/-! Sublist facts: propagation only shrinks domains. -/

theorem pruneNeq_sublist {i j : Nat} {ds ds2 : Doms} (h : pruneNeq i j ds = some ds2) :
    DomsLe ds2 ds := by
  unfold pruneNeq at h
  cases hfix : fixedVal? (getDom ds i) with
  | none => rw [hfix] at h; cases h; exact DomsLe.refl _
  | some v =>
    rw [hfix] at h
    simp only at h
    split at h
    · cases h
    · cases h; exact DomsLe.setDom_left (List.filter_sublist _)

theorem propNotEq_sublist {i j : Nat} {ds ds2 : Doms} (h : propNotEq i j ds = some ds2) :
    DomsLe ds2 ds := by
  unfold propNotEq at h
  cases h1 : pruneNeq i j ds with
  | none => rw [h1] at h; cases h
  | some ds1 =>
    rw [h1] at h
    exact (pruneNeq_sublist h).trans (pruneNeq_sublist h1)

theorem pruneDiffAux_sublist {fvs : List Int} :
    ∀ (r : List Nat) (ds ds2 : Doms), pruneDiffAux fvs r ds = some ds2 → DomsLe ds2 ds := by
  intro r
  induction r with
  | nil => intro ds ds2 h; cases h; exact DomsLe.refl _
  | cons j js ih =>
    intro ds ds2 h
    unfold pruneDiffAux at h
    dsimp only at h
    cases hfix : fixedVal? (getDom ds j) with
    | some v => rw [hfix] at h; exact ih ds ds2 h
    | none =>
      rw [hfix] at h
      simp only at h
      split at h
      · cases h
      · exact (ih _ _ h).trans (DomsLe.setDom_left (List.filter_sublist _))

theorem propAllDiff_sublist {vs : List Nat} {ds ds2 : Doms}
    (h : propAllDiff vs ds = some ds2) : DomsLe ds2 ds := by
  unfold propAllDiff at h
  cases hf : fixedVals vs ds with
  | none => rw [hf] at h; cases h
  | some fvs => rw [hf] at h; exact pruneDiffAux_sublist vs ds ds2 h

theorem pruneTerms_sublist {rhs lo hi : Int} {entry : Doms} :
    ∀ (ts : List (Int × Nat)) (ds ds2 : Doms),
      pruneTerms rhs lo hi entry ts ds = some ds2 → DomsLe ds2 ds := by
  intro ts
  induction ts with
  | nil => intro ds ds2 h; cases h; exact DomsLe.refl _
  | cons t ts ih =>
    intro ds ds2 h
    unfold pruneTerms at h
    simp only at h
    split at h
    · cases h
    · exact (ih _ _ h).trans (DomsLe.setDom_left (List.filter_sublist _))

theorem propLinEq_sublist {terms : List (Int × Nat)} {rhs : Int} {ds ds2 : Doms}
    (h : propLinEq terms rhs ds = some ds2) : DomsLe ds2 ds := by
  unfold propLinEq at h
  simp only at h
  split at h
  · cases h
  · exact pruneTerms_sublist terms ds ds2 h

theorem propagateConstr_sublist {c : Constr} {ds ds2 : Doms}
    (h : propagateConstr c ds = some ds2) : DomsLe ds2 ds := by
  cases c with
  | notEq i j => exact propNotEq_sublist h
  | allDiff vs => exact propAllDiff_sublist h
  | linEq terms rhs => exact propLinEq_sublist h

theorem propagateAll_sublist :
    ∀ (cs : List Constr) (ds ds2 : Doms), propagateAll cs ds = some ds2 → DomsLe ds2 ds := by
  intro cs
  induction cs with
  | nil => intro ds ds2 h; cases h; exact DomsLe.refl _
  | cons c cs ih =>
    intro ds ds2 h
    unfold propagateAll at h
    cases hc : propagateConstr c ds with
    | none => rw [hc] at h; cases h
    | some ds1 =>
      rw [hc] at h
      exact (ih ds1 ds2 h).trans (propagateConstr_sublist hc)

theorem propagateFix_sublist :
    ∀ (fuel : Nat) (cs : List Constr) (ds ds2 : Doms),
      propagateFix fuel cs ds = some ds2 → DomsLe ds2 ds := by
  intro fuel
  induction fuel with
  | zero => intro cs ds ds2 h; cases h; exact DomsLe.refl _
  | succ f ih =>
    intro cs ds ds2 h
    unfold propagateFix at h
    cases hall : propagateAll cs ds with
    | none => rw [hall] at h; cases h
    | some ds1 =>
      rw [hall] at h
      simp only at h
      split at h
      · cases h; exact propagateAll_sublist cs ds ds2 hall
      · exact (ih cs ds1 ds2 h).trans (propagateAll_sublist cs ds ds1 hall)

end CPCore

namespace CPCore

/-! Unfolding equations. -/

theorem fixedValsAux_cons (ds : Doms) (i : Nat) (is : List Nat) (acc : List Int) :
    fixedValsAux ds (i :: is) acc =
      match fixedVal? (getDom ds i) with
      | some v => if acc.contains v then none else fixedValsAux ds is (v :: acc)
      | none => fixedValsAux ds is acc := rfl

theorem pruneDiffAux_cons (fvs : List Int) (j : Nat) (js : List Nat) (ds : Doms) :
    pruneDiffAux fvs (j :: js) ds =
      match fixedVal? (getDom ds j) with
      | some _ => pruneDiffAux fvs js ds
      | none =>
        if ((getDom ds j).filter (fun w => ¬ fvs.contains w)).isEmpty then none
        else pruneDiffAux fvs js (setDom ds j ((getDom ds j).filter (fun w => ¬ fvs.contains w))) :=
  rfl

theorem pruneTerms_cons (rhs lo hi : Int) (entry : Doms) (t : Int × Nat)
    (ts : List (Int × Nat)) (ds : Doms) :
    pruneTerms rhs lo hi entry (t :: ts) ds =
      (if ((getDom ds t.2).filter
          (fun v => lo - termMin entry t + t.1 * v ≤ rhs ∧
            rhs ≤ hi - termMax entry t + t.1 * v)).isEmpty then none
       else pruneTerms rhs lo hi entry ts
        (setDom ds t.2 ((getDom ds t.2).filter
          (fun v => lo - termMin entry t + t.1 * v ≤ rhs ∧
            rhs ≤ hi - termMax entry t + t.1 * v)))) := rfl

/-! Preservation: propagation never removes a value of a satisfying
assignment that draws its values from the current domains, and it never
fails on such domains. -/

theorem valNe {vs : List Nat} {a : Assignment} (hvals : (vs.map (fun k => getVal a k)).Nodup)
    {k i : Nat} (hk : k ∈ vs) (hi : i ∈ vs) (hne : k ≠ i) : getVal a k ≠ getVal a i := by
  have hpw : vs.Pairwise (fun x y => getVal a x ≠ getVal a y) := (List.pairwise_map).1 hvals
  have hsym : Symmetric (fun x y : Nat => getVal a x ≠ getVal a y) :=
    fun x y h => fun e => h e.symm
  exact hpw.forall hsym hk hi hne

theorem pruneNeq_preserve {i j : Nat} {ds : Doms} {a : Assignment}
    (hj : j < ds.length) (hsupp : Supported ds a) (hne : getVal a i ≠ getVal a j) :
    ∃ ds2, pruneNeq i j ds = some ds2 ∧ Supported ds2 a := by
  cases hfix : fixedVal? (getDom ds i) with
  | none => exact ⟨ds, by simp [pruneNeq, hfix], hsupp⟩
  | some v =>
    have hdi : getDom ds i = [v] := fixedVal?_eq_some.1 hfix
    have hilt : i < ds.length := lt_length_of_getDom_ne_nil (by simp [hdi])
    have hvi : getVal a i = v := by
      have h2 := hsupp.getVal_mem hilt
      rw [hdi] at h2
      simpa using h2
    have hmemj : getVal a j ∈ getDom ds j := hsupp.getVal_mem hj
    have hmemf : getVal a j ∈ (getDom ds j).filter (fun w => w ≠ v) := by
      refine List.mem_filter.2 ⟨hmemj, ?_⟩
      have hjv : getVal a j ≠ v := fun h => hne (hvi.trans h.symm)
      simpa using hjv
    have hnonempty : ((getDom ds j).filter (fun w => w ≠ v)).isEmpty = false := by
      rw [← Bool.not_eq_true, List.isEmpty_iff]
      exact List.ne_nil_of_mem hmemf
    refine ⟨setDom ds j ((getDom ds j).filter (fun w => w ≠ v)), ?_, hsupp.setDom hmemf⟩
    unfold pruneNeq
    rw [hfix]
    simp only [hnonempty, Bool.false_eq_true, if_false]

theorem propNotEq_preserve {i j : Nat} {ds : Doms} {a : Assignment}
    (hi : i < ds.length) (hj : j < ds.length) (hsupp : Supported ds a)
    (hne : getVal a i ≠ getVal a j) :
    ∃ ds2, propNotEq i j ds = some ds2 ∧ Supported ds2 a := by
  obtain ⟨ds1, h1, hsupp1⟩ := pruneNeq_preserve hj hsupp hne
  have hlen : ds1.length = ds.length := (pruneNeq_sublist h1).length_eq
  have hi1 : i < ds1.length := by omega
  obtain ⟨ds2, h2, hsupp2⟩ := pruneNeq_preserve hi1 hsupp1 hne.symm
  exact ⟨ds2, by simp [propNotEq, h1, h2], hsupp2⟩

theorem fixedValsAux_sound {ds : Doms} :
    ∀ (r : List Nat) (acc out : List Int), fixedValsAux ds r acc = some out →
      ∀ w ∈ out, (∃ k ∈ r, getDom ds k = [w]) ∨ w ∈ acc := by
  intro r
  induction r with
  | nil =>
    intro acc out h w hw
    cases h
    exact Or.inr hw
  | cons i is ih =>
    intro acc out h w hw
    rw [fixedValsAux_cons] at h
    cases hfix : fixedVal? (getDom ds i) with
    | some v =>
      rw [hfix] at h
      simp only at h
      split at h
      · cases h
      · rcases ih _ _ h w hw with ⟨k, hk, hdk⟩ | hacc
        · exact Or.inl ⟨k, List.mem_cons_of_mem _ hk, hdk⟩
        · rcases List.mem_cons.1 hacc with rfl | hold
          · exact Or.inl ⟨i, List.mem_cons_self _ _, fixedVal?_eq_some.1 hfix⟩
          · exact Or.inr hold
    | none =>
      rw [hfix] at h
      rcases ih _ _ h w hw with ⟨k, hk, hdk⟩ | hacc
      · exact Or.inl ⟨k, List.mem_cons_of_mem _ hk, hdk⟩
      · exact Or.inr hacc

theorem fixedValsAux_isSome {ds : Doms} {a : Assignment} {vs : List Nat}
    (hsupp : Supported ds a) (hvals : (vs.map (fun k => getVal a k)).Nodup)
    (hscope : ∀ k ∈ vs, k < ds.length) :
    ∀ (r : List Nat) (acc : List Int), List.Sublist r vs →
      (∀ w ∈ acc, ∃ k, k ∈ vs ∧ k ∉ r ∧ getDom ds k = [w]) →
      ∃ out, fixedValsAux ds r acc = some out := by
  have hvsnd : vs.Nodup := List.Nodup.of_map _ hvals
  intro r
  induction r with
  | nil => intro acc _ _; exact ⟨acc, rfl⟩
  | cons i is ih =>
    intro acc hsub hacc
    have hiv : i ∈ vs := hsub.subset (List.mem_cons_self _ _)
    have histail : List.Sublist is vs := List.sublist_of_cons_sublist hsub
    have hinotis : i ∉ is := (List.nodup_cons.1 (hsub.nodup hvsnd)).1
    cases hfix : fixedVal? (getDom ds i) with
    | none =>
      have hacc2 : ∀ w ∈ acc, ∃ k, k ∈ vs ∧ k ∉ is ∧ getDom ds k = [w] := by
        intro w hw
        obtain ⟨k, hk, hknr, hdk⟩ := hacc w hw
        exact ⟨k, hk, fun hmem => hknr (List.mem_cons_of_mem _ hmem), hdk⟩
      obtain ⟨out, hout⟩ := ih acc histail hacc2
      refine ⟨out, ?_⟩
      rw [fixedValsAux_cons, hfix]
      exact hout
    | some v =>
      have hdi : getDom ds i = [v] := fixedVal?_eq_some.1 hfix
      have hvi : getVal a i = v := by
        have h2 := hsupp.getVal_mem (hscope i hiv)
        rw [hdi] at h2
        simpa using h2
      have hnotin : v ∉ acc := by
        intro hin
        obtain ⟨k, hk, hknr, hdk⟩ := hacc v hin
        have hkne : k ≠ i := fun e => hknr (e ▸ List.mem_cons_self _ _)
        have hvk : getVal a k = v := by
          have h2 := hsupp.getVal_mem (hscope k hk)
          rw [hdk] at h2
          simpa using h2
        exact valNe hvals hk hiv hkne (by rw [hvk, hvi])
      have hcont : acc.contains v = false := by
        rw [← Bool.not_eq_true]
        intro hc
        exact hnotin (by simpa using hc)
      have hacc2 : ∀ w ∈ (v :: acc), ∃ k, k ∈ vs ∧ k ∉ is ∧ getDom ds k = [w] := by
        intro w hw
        rcases List.mem_cons.1 hw with rfl | hold
        · exact ⟨i, hiv, hinotis, hdi⟩
        · obtain ⟨k, hk, hknr, hdk⟩ := hacc w hold
          exact ⟨k, hk, fun hmem => hknr (List.mem_cons_of_mem _ hmem), hdk⟩
      obtain ⟨out, hout⟩ := ih (v :: acc) histail hacc2
      refine ⟨out, ?_⟩
      rw [fixedValsAux_cons, hfix]
      simp only [hcont, Bool.false_eq_true, if_false]
      exact hout

theorem pruneDiffAux_preserve {vs : List Nat} {a : Assignment} {entry : Doms}
    {fvs : List Int}
    (hfvs : ∀ w ∈ fvs, ∃ k ∈ vs, getDom entry k = [w])
    (hvals : (vs.map (fun k => getVal a k)).Nodup)
    (hscope : ∀ k ∈ vs, k < entry.length)
    (hsupp0 : Supported entry a) :
    ∀ (r : List Nat) (ds : Doms), (∀ k ∈ r, k ∈ vs) → Supported ds a → DomsLe ds entry →
      ∃ ds2, pruneDiffAux fvs r ds = some ds2 ∧ Supported ds2 a ∧ DomsLe ds2 entry := by
  intro r
  induction r with
  | nil => intro ds _ hsupp hle; exact ⟨ds, rfl, hsupp, hle⟩
  | cons j js ih =>
    intro ds hr hsupp hle
    have hjv : j ∈ vs := hr j (List.mem_cons_self _ _)
    have hjlt : j < ds.length := hle.length_eq ▸ hscope j hjv
    have hrtail : ∀ k ∈ js, k ∈ vs := fun k hk => hr k (List.mem_cons_of_mem _ hk)
    cases hfix : fixedVal? (getDom ds j) with
    | some v =>
      obtain ⟨ds2, h2, hs2, hl2⟩ := ih ds hrtail hsupp hle
      refine ⟨ds2, ?_, hs2, hl2⟩
      rw [pruneDiffAux_cons, hfix]
      exact h2
    | none =>
      have hmemj : getVal a j ∈ getDom ds j := hsupp.getVal_mem hjlt
      have hnotfv : getVal a j ∉ fvs := by
        intro hin
        obtain ⟨k, hk, hdk⟩ := hfvs (getVal a j) hin
        by_cases hkj : k = j
        · subst hkj
          have hsub : List.Sublist (getDom ds k) (getDom entry k) := hle.getDom_sublist k
          rw [hdk] at hsub
          rcases List.sublist_singleton.1 hsub with hnil | hsingle
          · rw [hnil] at hmemj; simp at hmemj
          · rw [hsingle] at hfix; simp [fixedVal?] at hfix
        · have hvk : getVal a k = getVal a j := by
            have h2 := hsupp0.getVal_mem (hscope k hk)
            rw [hdk] at h2
            simpa using h2
          exact valNe hvals hk hjv hkj hvk
      have hmemf : getVal a j ∈ (getDom ds j).filter (fun w => ¬ fvs.contains w) := by
        refine List.mem_filter.2 ⟨hmemj, ?_⟩
        simp only [decide_not, Bool.not_eq_true']
        rw [← Bool.not_eq_true]
        intro hc
        exact hnotfv (by simpa using hc)
      have hnonempty : ((getDom ds j).filter (fun w => ¬ fvs.contains w)).isEmpty = false := by
        rw [← Bool.not_eq_true, List.isEmpty_iff]
        exact List.ne_nil_of_mem hmemf
      have hle2 : DomsLe (setDom ds j ((getDom ds j).filter (fun w => ¬ fvs.contains w))) entry :=
        (DomsLe.setDom_left (List.filter_sublist _)).trans hle
      obtain ⟨ds2, h2, hs2, hl2⟩ := ih _ hrtail (hsupp.setDom hmemf) hle2
      refine ⟨ds2, ?_, hs2, hl2⟩
      rw [pruneDiffAux_cons, hfix]
      simp only [hnonempty, Bool.false_eq_true, if_false]
      exact h2

theorem propAllDiff_preserve {vs : List Nat} {ds : Doms} {a : Assignment}
    (hscope : ∀ k ∈ vs, k < ds.length) (hsupp : Supported ds a)
    (hvals : (vs.map (fun k => getVal a k)).Nodup) :
    ∃ ds2, propAllDiff vs ds = some ds2 ∧ Supported ds2 a := by
  obtain ⟨fvs, hfvs⟩ := fixedValsAux_isSome hsupp hvals hscope vs []
    (List.Sublist.refl vs) (by intro w hw; simp at hw)
  have hsound : ∀ w ∈ fvs, ∃ k ∈ vs, getDom ds k = [w] := by
    intro w hw
    rcases fixedValsAux_sound vs [] fvs hfvs w hw with h | h
    · exact h
    · simp at h
  obtain ⟨ds2, h2, hs2, _⟩ := pruneDiffAux_preserve hsound hvals hscope hsupp vs ds
    (fun k hk => hk) hsupp (DomsLe.refl ds)
  exact ⟨ds2, by simp [propAllDiff, fixedVals, hfvs, h2], hs2⟩

theorem pruneTerms_preserve {terms : List (Int × Nat)} {rhs : Int} {entry : Doms}
    {a : Assignment}
    (hscope : ∀ t ∈ terms, t.2 < entry.length)
    (hsupp0 : Supported entry a)
    (hsum : termsSum a terms = rhs) :
    ∀ (ts : List (Int × Nat)) (ds : Doms), (∀ t ∈ ts, t ∈ terms) →
      Supported ds a → DomsLe ds entry →
      ∃ ds2, pruneTerms rhs (sumMin terms entry) (sumMax terms entry) entry ts ds = some ds2 ∧
        Supported ds2 a ∧ DomsLe ds2 entry := by
  intro ts
  induction ts with
  | nil => intro ds _ hsupp hle; exact ⟨ds, rfl, hsupp, hle⟩
  | cons t ts ih =>
    intro ds hts hsupp hle
    have htv : t ∈ terms := hts t (List.mem_cons_self _ _)
    have htlt : t.2 < ds.length := hle.length_eq ▸ hscope t htv
    have hmemt : getVal a t.2 ∈ getDom ds t.2 := hsupp.getVal_mem htlt
    have hlow : sumMin terms entry - termMin entry t + t.1 * getVal a t.2 ≤ rhs := by
      have h2 := sumMin_sub_le htv hsupp0 hscope
      linarith
    have hhigh : rhs ≤ sumMax terms entry - termMax entry t + t.1 * getVal a t.2 := by
      have h2 := sub_le_sumMax htv hsupp0 hscope
      linarith
    have hmemf : getVal a t.2 ∈ (getDom ds t.2).filter
        (fun v => sumMin terms entry - termMin entry t + t.1 * v ≤ rhs ∧
          rhs ≤ sumMax terms entry - termMax entry t + t.1 * v) := by
      refine List.mem_filter.2 ⟨hmemt, ?_⟩
      simp only [decide_eq_true_eq]
      exact ⟨hlow, hhigh⟩
    have hnonempty : ((getDom ds t.2).filter
        (fun v => sumMin terms entry - termMin entry t + t.1 * v ≤ rhs ∧
          rhs ≤ sumMax terms entry - termMax entry t + t.1 * v)).isEmpty = false := by
      rw [← Bool.not_eq_true, List.isEmpty_iff]
      exact List.ne_nil_of_mem hmemf
    have hle2 : DomsLe (setDom ds t.2 ((getDom ds t.2).filter
        (fun v => sumMin terms entry - termMin entry t + t.1 * v ≤ rhs ∧
          rhs ≤ sumMax terms entry - termMax entry t + t.1 * v))) entry :=
      (DomsLe.setDom_left (List.filter_sublist _)).trans hle
    obtain ⟨ds2, h2, hs2, hl2⟩ := ih _ (fun u hu => hts u (List.mem_cons_of_mem _ hu))
      (hsupp.setDom hmemf) hle2
    refine ⟨ds2, ?_, hs2, hl2⟩
    rw [pruneTerms_cons]
    simp only [hnonempty, Bool.false_eq_true, if_false]
    exact h2

theorem propLinEq_preserve {terms : List (Int × Nat)} {rhs : Int} {ds : Doms}
    {a : Assignment}
    (hscope : ∀ t ∈ terms, t.2 < ds.length) (hsupp : Supported ds a)
    (hsum : termsSum a terms = rhs) :
    ∃ ds2, propLinEq terms rhs ds = some ds2 ∧ Supported ds2 a := by
  have hlo : sumMin terms ds ≤ rhs := hsum ▸ sumMin_le_termsSum hsupp hscope
  have hhi : rhs ≤ sumMax terms ds := hsum ▸ termsSum_le_sumMax hsupp hscope
  obtain ⟨ds2, h2, hs2, _⟩ := pruneTerms_preserve hscope hsupp hsum terms ds
    (fun t ht => ht) hsupp (DomsLe.refl ds)
  refine ⟨ds2, ?_, hs2⟩
  unfold propLinEq
  have hcond : ¬ (rhs < sumMin terms ds ∨ sumMax terms ds < rhs) := by omega
  rw [if_neg hcond]
  exact h2

theorem propagateConstr_preserve {c : Constr} {n : Nat} {ds : Doms} {a : Assignment}
    (hscope : constrScopeOk n c = true) (hlen : ds.length = n)
    (hsupp : Supported ds a) (hsat : constrSat a c) :
    ∃ ds2, propagateConstr c ds = some ds2 ∧ Supported ds2 a := by
  cases c with
  | notEq i j =>
    simp only [constrScopeOk, Bool.and_eq_true, decide_eq_true_eq] at hscope
    exact propNotEq_preserve (hlen ▸ hscope.1) (hlen ▸ hscope.2) hsupp hsat
  | allDiff vs =>
    simp only [constrScopeOk, List.all_eq_true, decide_eq_true_eq] at hscope
    exact propAllDiff_preserve (fun k hk => hlen ▸ hscope k hk) hsupp hsat
  | linEq terms rhs =>
    simp only [constrScopeOk, List.all_eq_true, decide_eq_true_eq] at hscope
    exact propLinEq_preserve (fun t ht => hlen ▸ hscope t ht) hsupp hsat

theorem propagateAll_preserve {n : Nat} {a : Assignment} :
    ∀ (cs : List Constr) (ds : Doms), (∀ c ∈ cs, constrScopeOk n c = true) →
      ds.length = n → Supported ds a → (∀ c ∈ cs, constrSat a c) →
      ∃ ds2, propagateAll cs ds = some ds2 ∧ Supported ds2 a := by
  intro cs
  induction cs with
  | nil => intro ds _ _ hsupp _; exact ⟨ds, rfl, hsupp⟩
  | cons c cs ih =>
    intro ds hscope hlen hsupp hsat
    obtain ⟨ds1, h1, hs1⟩ := propagateConstr_preserve (hscope c (List.mem_cons_self _ _))
      hlen hsupp (hsat c (List.mem_cons_self _ _))
    have hlen1 : ds1.length = n := (propagateConstr_sublist h1).length_eq.trans hlen
    obtain ⟨ds2, h2, hs2⟩ := ih ds1 (fun u hu => hscope u (List.mem_cons_of_mem _ hu))
      hlen1 hs1 (fun u hu => hsat u (List.mem_cons_of_mem _ hu))
    exact ⟨ds2, by simp [propagateAll, h1, h2], hs2⟩

theorem propagateFix_preserve {n : Nat} {cs : List Constr} {a : Assignment}
    (hscope : ∀ c ∈ cs, constrScopeOk n c = true) (hsat : ∀ c ∈ cs, constrSat a c) :
    ∀ (fuel : Nat) (ds : Doms), ds.length = n → Supported ds a →
      ∃ ds2, propagateFix fuel cs ds = some ds2 ∧ Supported ds2 a := by
  intro fuel
  induction fuel with
  | zero => intro ds _ hsupp; exact ⟨ds, rfl, hsupp⟩
  | succ f ih =>
    intro ds hlen hsupp
    obtain ⟨ds1, h1, hs1⟩ := propagateAll_preserve cs ds hscope hlen hsupp hsat
    by_cases hsz : domSize ds1 = domSize ds
    · exact ⟨ds1, by simp [propagateFix, h1, hsz], hs1⟩
    · have hlen1 : ds1.length = n := (propagateAll_sublist cs ds ds1 h1).length_eq.trans hlen
      obtain ⟨ds2, h2, hs2⟩ := ih ds1 hlen1 hs1
      exact ⟨ds2, by simp [propagateFix, h1, hsz, h2], hs2⟩

end CPCore

namespace CPCore

/-! Variable choice and full-assignment extraction. -/

theorem getDom_mem {ds : Doms} {i : Nat} (h : i < ds.length) : getDom ds i ∈ ds := by
  induction ds generalizing i with
  | nil => simp at h
  | cons d rest ih =>
    cases i with
    | zero => exact List.mem_cons_self _ _
    | succ n => exact List.mem_cons_of_mem _ (ih (by simpa using h))

theorem chooseVar_eq_none {ds : Doms} (h : chooseVar ds = none) :
    ∀ d ∈ ds, d.length ≤ 1 := by
  induction ds with
  | nil => intro d hd; simp at hd
  | cons d0 rest ih =>
    intro d hd
    unfold chooseVar at h
    split at h
    · cases h
    · rcases List.mem_cons.1 hd with rfl | hmem
      · omega
      · exact ih (Option.map_eq_none'.1 h) d hmem

theorem chooseVar_eq_some {ds : Doms} {i : Nat} (h : chooseVar ds = some i) :
    i < ds.length ∧ 1 < (getDom ds i).length := by
  induction ds generalizing i with
  | nil => cases h
  | cons d0 rest ih =>
    unfold chooseVar at h
    split at h
    · cases h
      refine ⟨by simp, ?_⟩
      simpa [getDom] using (by assumption : d0.length > 1)
    · obtain ⟨i0, h0, rfl⟩ := Option.map_eq_some'.1 h
      obtain ⟨h1, h2⟩ := ih h0
      exact ⟨by simpa using h1, by simpa [getDom] using h2⟩

theorem allFixed?_complete {ds : Doms} {a : Assignment} (hsupp : Supported ds a)
    (hall : ∀ d ∈ ds, d.length ≤ 1) : allFixed? ds = some a := by
  induction hsupp with
  | nil => rfl
  | @cons d v rest a2 hv htail ih =>
    have hfix : fixedVal? d = some v :=
      fixedVal?_of_nonempty_le_one hv (hall d (List.mem_cons_self _ _))
    have hrec : allFixed? rest = some a2 := ih (fun x hx => hall x (List.mem_cons_of_mem _ hx))
    show (match fixedVal? d, allFixed? rest with
      | some v, some a => some (v :: a)
      | _, _ => none) = some (v :: a2)
    rw [hfix, hrec]

theorem allFixed?_supported : ∀ {ds : Doms} {a : Assignment},
    allFixed? ds = some a → Supported ds a := by
  intro ds
  induction ds with
  | nil =>
    intro a h
    cases h
    exact List.Forall₂.nil
  | cons d rest ih =>
    intro a h
    have h2 : (match fixedVal? d, allFixed? rest with
      | some v, some a => some (v :: a)
      | _, _ => none) = some a := h
    cases hfix : fixedVal? d with
    | none => rw [hfix] at h2; cases h2
    | some v =>
      cases hrec : allFixed? rest with
      | none => rw [hfix, hrec] at h2; cases h2
      | some a2 =>
        rw [hfix, hrec] at h2
        cases h2
        have hd : d = [v] := fixedVal?_eq_some.1 hfix
        exact List.Forall₂.cons (by simp [hd]) (ih hrec)

/-! The all-solutions search: soundness, completeness, distinctness. -/

theorem search_succ (f : Nat) (cs : List Constr) (ds : Doms) :
    search (f + 1) cs ds =
      match propagateFix (domSize ds + 1) cs ds with
      | none => []
      | some ds2 =>
        match chooseVar ds2 with
        | none =>
          match allFixed? ds2 with
          | some a => if satAll cs a then [a] else []
          | none => []
        | some i => (getDom ds2 i).flatMap (fun v => search f cs (setDom ds2 i [v])) := rfl

theorem search_sound {cs : List Constr} :
    ∀ (fuel : Nat) (ds : Doms) (a : Assignment), a ∈ search fuel cs ds →
      satAll cs a ∧ Supported ds a := by
  intro fuel
  induction fuel with
  | zero => intro ds a h; simp [search] at h
  | succ f ih =>
    intro ds a h
    rw [search_succ] at h
    cases hpf : propagateFix (domSize ds + 1) cs ds with
    | none => simp only [hpf] at h; simp at h
    | some ds2 =>
      simp only [hpf] at h
      have hle2 : DomsLe ds2 ds := propagateFix_sublist _ _ _ _ hpf
      cases hcv : chooseVar ds2 with
      | none =>
        simp only [hcv] at h
        cases haf : allFixed? ds2 with
        | none => simp only [haf] at h; simp at h
        | some a0 =>
          simp only [haf] at h
          by_cases hsat : satAll cs a0
          · rw [if_pos hsat] at h
            have ha : a = a0 := by simpa using h
            subst ha
            exact ⟨hsat, (allFixed?_supported haf).mono hle2⟩
          · rw [if_neg hsat] at h
            simp at h
      | some i =>
        simp only [hcv] at h
        obtain ⟨v, hv, hrec⟩ := List.mem_flatMap.1 h
        obtain ⟨hsat, hsupp⟩ := ih _ _ hrec
        have hle3 : DomsLe (setDom ds2 i [v]) ds2 :=
          DomsLe.setDom_left (List.singleton_sublist.2 hv)
        exact ⟨hsat, (hsupp.mono hle3).mono hle2⟩

theorem search_complete {cs : List Constr} {n : Nat}
    (hscope : ∀ c ∈ cs, constrScopeOk n c = true) :
    ∀ (fuel : Nat) (ds : Doms) (a : Assignment), ds.length = n → Supported ds a →
      satAll cs a → domSize ds < fuel → a ∈ search fuel cs ds := by
  intro fuel
  induction fuel with
  | zero => intro ds a _ _ _ h; omega
  | succ f ih =>
    intro ds a hlen hsupp hsat hfuel
    obtain ⟨ds2, hpf, hsupp2⟩ := propagateFix_preserve hscope hsat (domSize ds + 1) ds hlen hsupp
    have hle2 : DomsLe ds2 ds := propagateFix_sublist _ _ _ _ hpf
    rw [search_succ]
    simp only [hpf]
    cases hcv : chooseVar ds2 with
    | none =>
      have hall : ∀ d ∈ ds2, d.length ≤ 1 := chooseVar_eq_none hcv
      have haf : allFixed? ds2 = some a := allFixed?_complete hsupp2 hall
      simp only [haf]
      rw [if_pos hsat]
      exact List.mem_singleton.2 rfl
    | some i =>
      obtain ⟨hilt, hgt⟩ := chooseVar_eq_some hcv
      have hv : getVal a i ∈ getDom ds2 i := hsupp2.getVal_mem hilt
      refine List.mem_flatMap.2 ⟨getVal a i, hv, ?_⟩
      have hlen3 : (setDom ds2 i [getVal a i]).length = n := by
        rw [length_setDom]
        exact hle2.length_eq.trans hlen
      have hsupp3 : Supported (setDom ds2 i [getVal a i]) a :=
        hsupp2.setDom (List.mem_singleton.2 rfl)
      have hsz : domSize (setDom ds2 i [getVal a i]) < f := by
        have h1 : domSize (setDom ds2 i [getVal a i]) < domSize ds2 :=
          domSize_setDom_lt hilt (by simpa using hgt)
        have h2 : domSize ds2 ≤ domSize ds := hle2.domSize_le
        omega
      exact ih _ a hlen3 hsupp3 hsat hsz

theorem search_nodup {cs : List Constr} :
    ∀ (fuel : Nat) (ds : Doms), (∀ d ∈ ds, d.Nodup) → (search fuel cs ds).Nodup := by
  intro fuel
  induction fuel with
  | zero => intro ds _; simp [search]
  | succ f ih =>
    intro ds hnd
    rw [search_succ]
    cases hpf : propagateFix (domSize ds + 1) cs ds with
    | none => simp only [hpf]; exact List.nodup_nil
    | some ds2 =>
      simp only [hpf]
      have hnd2 : ∀ d ∈ ds2, d.Nodup := (propagateFix_sublist _ _ _ _ hpf).nodup hnd
      cases hcv : chooseVar ds2 with
      | none =>
        simp only [hcv]
        cases haf : allFixed? ds2 with
        | none => simp only [haf]; exact List.nodup_nil
        | some a0 =>
          simp only [haf]
          split
          · exact List.nodup_singleton a0
          · exact List.nodup_nil
      | some i =>
        simp only [hcv]
        obtain ⟨hilt, _⟩ := chooseVar_eq_some hcv
        refine List.nodup_flatMap.2 ⟨?_, ?_⟩
        · intro v _
          refine ih _ ?_
          intro d hd
          rcases mem_setDom hd with rfl | hmem
          · exact List.nodup_singleton v
          · exact hnd2 d hmem
        · have hdomnd : (getDom ds2 i).Nodup := hnd2 _ (getDom_mem hilt)
          refine hdomnd.imp ?_
          intro v w hvw
          intro a ha1 ha2
          have h1 := (search_sound _ _ _ ha1).2
          have h2 := (search_sound _ _ _ ha2).2
          have e1 : getVal a i ∈ getDom (setDom ds2 i [v]) i :=
            h1.getVal_mem (by rw [length_setDom]; exact hilt)
          have e2 : getVal a i ∈ getDom (setDom ds2 i [w]) i :=
            h2.getVal_mem (by rw [length_setDom]; exact hilt)
          rw [getDom_setDom_self hilt] at e1 e2
          exact hvw ((List.mem_singleton.1 e1).symm.trans (List.mem_singleton.1 e2))

/-! Brute-force enumeration. -/

theorem mem_allAssignments : ∀ (ds : Doms) (a : Assignment),
    a ∈ allAssignments ds ↔ Supported ds a := by
  intro ds
  induction ds with
  | nil =>
    intro a
    simp only [allAssignments, List.mem_singleton]
    constructor
    · rintro rfl
      exact List.Forall₂.nil
    · intro h
      exact List.forall₂_nil_left_iff.1 h
  | cons d rest ih =>
    intro a
    simp only [allAssignments, List.mem_flatMap, List.mem_map]
    constructor
    · rintro ⟨v, hv, a2, ha2, rfl⟩
      exact List.Forall₂.cons hv ((ih a2).1 ha2)
    · intro h
      rcases List.forall₂_cons_left_iff.1 h with ⟨v, a2, hv, htail, rfl⟩
      exact ⟨v, hv, a2, (ih a2).2 htail, rfl⟩

theorem nodup_allAssignments : ∀ (ds : Doms), (∀ d ∈ ds, d.Nodup) →
    (allAssignments ds).Nodup := by
  intro ds
  induction ds with
  | nil => intro _; simp [allAssignments]
  | cons d rest ih =>
    intro hnd
    simp only [allAssignments]
    refine List.nodup_flatMap.2 ⟨?_, ?_⟩
    · intro v _
      refine (ih (fun x hx => hnd x (List.mem_cons_of_mem _ hx))).map ?_
      intro a b h
      injection h
    · have hdnd : d.Nodup := hnd d (List.mem_cons_self _ _)
      refine hdnd.imp ?_
      intro v w hvw a ha1 ha2
      obtain ⟨a1, _, he1⟩ := List.mem_map.1 ha1
      obtain ⟨a2, _, he2⟩ := List.mem_map.1 ha2
      rw [← he1] at he2
      injection he2 with hhead _
      exact hvw hhead.symm

theorem mem_rangeList {lo hi v : Int} : v ∈ rangeList lo hi ↔ lo ≤ v ∧ v ≤ hi := by
  unfold rangeList
  constructor
  · intro h
    obtain ⟨k, hk, he⟩ := List.mem_map.1 h
    have hk2 := List.mem_range.1 hk
    have he2 : lo + (Nat.cast k : Int) = v := he
    omega
  · intro ⟨h1, h2⟩
    refine List.mem_map.2 ⟨(v - lo).toNat, ?_, ?_⟩
    · exact List.mem_range.2 (by omega)
    · show lo + (Nat.cast ((v - lo).toNat) : Int) = v
      omega

theorem nodup_rangeList (lo hi : Int) : (rangeList lo hi).Nodup := by
  unfold rangeList
  refine (List.nodup_range _).map ?_
  intro a b h
  have h2 : lo + (Nat.cast a : Int) = lo + (Nat.cast b : Int) := h
  omega

theorem length_initDoms (m : Model) : (initDoms m).length = m.vars.length := by
  simp [initDoms]

theorem getDom_map (f : FDVar → Domain) :
    ∀ (l : List FDVar) (i : Nat), i < l.length →
      getDom (l.map f) i = f (l.getD i defaultVar) := by
  intro l
  induction l with
  | nil => intro i h; simp at h
  | cons x xs ih =>
    intro i h
    cases i with
    | zero => rfl
    | succ n => exact ih n (by simpa using h)

theorem getDom_initDoms {m : Model} {i : Nat} (h : i < m.vars.length) :
    getDom (initDoms m) i = rangeList (varLo m i) (varHi m i) := by
  unfold initDoms varLo varHi
  rw [getDom_map _ _ _ h]

theorem nodup_initDoms (m : Model) : ∀ d ∈ initDoms m, d.Nodup := by
  intro d hd
  obtain ⟨x, _, rfl⟩ := List.mem_map.1 hd
  exact nodup_rangeList _ _

/-! Solve-level facts for the all-solutions mode. -/

theorem validModel_scope {m : Model} (hv : validModel m = true) :
    ∀ c ∈ m.constrs, constrScopeOk m.vars.length c = true := by
  unfold validModel at hv
  simp only [Bool.and_eq_true, List.all_eq_true] at hv
  exact hv.1.1

theorem solve_allSolutions_solutions {m : Model} (hv : validModel m = true) :
    (solve m .allSolutions).solutions =
      search (domSize (initDoms m) + 1) m.constrs (initDoms m) := by
  simp [solve, hv, solveValid]

theorem mem_bruteSols {m : Model} {a : Assignment} :
    a ∈ bruteSols m ↔ Supported (initDoms m) a ∧ satAll m.constrs a := by
  unfold bruteSols
  rw [List.mem_filter, mem_allAssignments, decide_eq_true_eq]

theorem nodup_bruteSols (m : Model) : (bruteSols m).Nodup :=
  (nodup_allAssignments _ (nodup_initDoms m)).filter _

theorem mem_solve_allSolutions {m : Model} (hv : validModel m = true) {a : Assignment} :
    a ∈ (solve m .allSolutions).solutions ↔ a ∈ bruteSols m := by
  rw [solve_allSolutions_solutions hv, mem_bruteSols]
  constructor
  · intro h
    obtain ⟨hsat, hsupp⟩ := search_sound _ _ _ h
    exact ⟨hsupp, hsat⟩
  · intro ⟨hsupp, hsat⟩
    exact search_complete (validModel_scope hv) _ _ a (length_initDoms m) hsupp hsat
      (Nat.lt_succ_self _)

theorem nodup_solve_allSolutions {m : Model} (hv : validModel m = true) :
    (solve m .allSolutions).solutions.Nodup := by
  rw [solve_allSolutions_solutions hv]
  exact search_nodup _ _ (nodup_initDoms m)

theorem solve_allSolutions_perm_brute {m : Model} (hv : validModel m = true) :
    ((solve m .allSolutions).solutions).Perm (bruteSols m) :=
  (List.perm_ext_iff_of_nodup (nodup_solve_allSolutions hv) (nodup_bruteSols m)).2
    (fun _ => mem_solve_allSolutions hv)

theorem solve_allSolutions_length {m : Model} (hv : validModel m = true) :
    (solve m .allSolutions).solutions.length = (bruteSols m).length :=
  (solve_allSolutions_perm_brute hv).length_eq

end CPCore

namespace CPCore

/-! Assignment access helpers for the counting argument. -/

theorem getVal_mem_of_lt : ∀ {a : Assignment} {i : Nat}, i < a.length → getVal a i ∈ a := by
  intro a
  induction a with
  | nil => intro i h; simp at h
  | cons v rest ih =>
    intro i h
    cases i with
    | zero => exact List.mem_cons_self _ _
    | succ n => exact List.mem_cons_of_mem _ (ih (by simpa using h))

theorem getVal_ext : ∀ {a b : Assignment}, a.length = b.length →
    (∀ i, i < a.length → getVal a i = getVal b i) → a = b := by
  intro a
  induction a with
  | nil =>
    intro b hlen _
    cases b with
    | nil => rfl
    | cons w rest => simp at hlen
  | cons v rest ih =>
    intro b hlen hval
    cases b with
    | nil => simp at hlen
    | cons w rest2 =>
      have h0 : v = w := hval 0 (by simp)
      have htail : rest = rest2 := by
        refine ih (by simpa using hlen) ?_
        intro i hi
        exact hval (i + 1) (by simpa using hi)
      rw [h0, htail]

theorem getVal_ne_of_nodup : ∀ {a : Assignment}, a.Nodup → ∀ {i j : Nat},
    i < a.length → j < a.length → i ≠ j → getVal a i ≠ getVal a j := by
  intro a
  induction a with
  | nil => intro _ i j hi; simp at hi
  | cons v rest ih =>
    intro hnd i j hi hj hij
    obtain ⟨hvn, hrest⟩ := List.nodup_cons.1 hnd
    cases i with
    | zero =>
      cases j with
      | zero => exact absurd rfl hij
      | succ n =>
        intro he
        have hv2 : v = getVal rest n := he
        refine hvn ?_
        rw [hv2]
        exact getVal_mem_of_lt (by simpa using hj)
    | succ m =>
      cases j with
      | zero =>
        intro he
        have hv2 : v = getVal rest m := he.symm
        refine hvn ?_
        rw [hv2]
        exact getVal_mem_of_lt (by simpa using hi)
      | succ n =>
        exact ih hrest (by simpa using hi) (by simpa using hj) (by omega)

theorem embed_inj_on_len7 {f : Int} {p q : List Int} (hp : p.length = 7)
    (hq : q.length = 7) (h : embed f p = embed f q) : p = q := by
  simp only [embed, List.cons.injEq, and_true] at h
  obtain ⟨e0, e1, e2, e3, -, e4, e5, -, -, e6⟩ := h
  refine getVal_ext (hp.trans hq.symm) ?_
  intro i hi
  rw [hp] at hi
  interval_cases i
  · exact e0
  · exact e1
  · exact e2
  · exact e3
  · exact e4
  · exact e5
  · exact e6

theorem getVal_embed_four (f : Int) (p : List Int) : getVal (embed f p) 4 = f := rfl

theorem nodup_permutationsP {l : List Int} (h : l.Nodup) : l.permutations'.Nodup :=
  ((List.permutations_perm_permutations' l).nodup_iff).1 (List.nodup_permutations l h)

theorem nodup_cryptoWitnessList : cryptoWitnessList.Nodup := by
  unfold cryptoWitnessList
  rw [List.nodup_append]
  refine ⟨?_, ?_, ?_⟩
  · refine List.Nodup.map_on ?_ ((nodup_permutationsP (by decide)).filter _)
    intro p hp q hq he
    have hp7 : p.length = 7 :=
      (List.mem_permutations'.1 (List.mem_of_mem_filter hp)).length_eq.trans rfl
    have hq7 : q.length = 7 :=
      (List.mem_permutations'.1 (List.mem_of_mem_filter hq)).length_eq.trans rfl
    exact embed_inj_on_len7 hp7 hq7 he
  · refine List.Nodup.map_on ?_ ((nodup_permutationsP (by decide)).filter _)
    intro p hp q hq he
    have hp7 : p.length = 7 :=
      (List.mem_permutations'.1 (List.mem_of_mem_filter hp)).length_eq.trans rfl
    have hq7 : q.length = 7 :=
      (List.mem_permutations'.1 (List.mem_of_mem_filter hq)).length_eq.trans rfl
    exact embed_inj_on_len7 hp7 hq7 he
  · intro a ha8 ha9
    obtain ⟨p, _, rfl⟩ := List.mem_map.1 ha8
    obtain ⟨q, _, he⟩ := List.mem_map.1 ha9
    have h4 : getVal (embed 9 q) 4 = getVal (embed 8 p) 4 := by rw [he]
    rw [getVal_embed_four, getVal_embed_four] at h4
    exact absurd h4 (by decide)

end CPCore

namespace CPCore

/-! The counting argument for the cryptarithmetic model: every solution
fixes T = 1, R = 0, F ∈ {8, 9}, and corresponds to a permutation of the
remaining seven digits satisfying the reduced equation. -/

theorem list_eq_of_length_seven {p : List Int} (h : p.length = 7) :
    ∃ y0 y1 y2 y3 y4 y5 y6, p = [y0, y1, y2, y3, y4, y5, y6] := by
  rcases p with _ | ⟨y0, p⟩
  · simp at h
  rcases p with _ | ⟨y1, p⟩
  · simp at h
  rcases p with _ | ⟨y2, p⟩
  · simp at h
  rcases p with _ | ⟨y3, p⟩
  · simp at h
  rcases p with _ | ⟨y4, p⟩
  · simp at h
  rcases p with _ | ⟨y5, p⟩
  · simp at h
  rcases p with _ | ⟨y6, p⟩
  · simp at h
  rcases p with _ | ⟨y7, p⟩
  · exact ⟨y0, y1, y2, y3, y4, y5, y6, rfl⟩
  · simp at h

theorem mem_cryptoBase8_of {z : Int} (h1 : 0 ≤ z) (h2 : z ≤ 9)
    (hz0 : z ≠ 0) (hz1 : z ≠ 1) (hz8 : z ≠ 8) : z ∈ cryptoBase8 := by
  simp only [cryptoBase8, List.mem_cons, List.not_mem_nil, or_false]
  omega

theorem mem_cryptoBase9_of {z : Int} (h1 : 0 ≤ z) (h2 : z ≤ 9)
    (hz0 : z ≠ 0) (hz1 : z ≠ 1) (hz9 : z ≠ 9) : z ∈ cryptoBase9 := by
  simp only [cryptoBase9, List.mem_cons, List.not_mem_nil, or_false]
  omega

theorem mem_cryptoBase8_facts {z : Int} (h : z ∈ cryptoBase8) :
    2 ≤ z ∧ z ≤ 9 ∧ z ≠ 8 := by
  simp only [cryptoBase8, List.mem_cons, List.not_mem_nil, or_false] at h
  omega

theorem mem_cryptoBase9_facts {z : Int} (h : z ∈ cryptoBase9) :
    2 ≤ z ∧ z ≤ 8 := by
  simp only [cryptoBase9, List.mem_cons, List.not_mem_nil, or_false] at h
  omega

theorem supported_cp_of {x0 x1 x2 x3 x4 x5 x6 x7 x8 x9 : Int}
    (h0 : 1 ≤ x0 ∧ x0 ≤ 9) (h1 : 0 ≤ x1 ∧ x1 ≤ 9) (h2 : 1 ≤ x2 ∧ x2 ≤ 9)
    (h3 : 0 ≤ x3 ∧ x3 ≤ 9) (h4 : 1 ≤ x4 ∧ x4 ≤ 9) (h5 : 0 ≤ x5 ∧ x5 ≤ 9)
    (h6 : 0 ≤ x6 ∧ x6 ≤ 9) (h7 : 1 ≤ x7 ∧ x7 ≤ 9) (h8 : 0 ≤ x8 ∧ x8 ≤ 9)
    (h9 : 0 ≤ x9 ∧ x9 ≤ 9) :
    Supported (initDoms cpIsFunModel) [x0, x1, x2, x3, x4, x5, x6, x7, x8, x9] := by
  show Supported [rangeList 1 9, rangeList 0 9, rangeList 1 9, rangeList 0 9,
      rangeList 1 9, rangeList 0 9, rangeList 0 9, rangeList 1 9, rangeList 0 9,
      rangeList 0 9] [x0, x1, x2, x3, x4, x5, x6, x7, x8, x9]
  exact List.Forall₂.cons (mem_rangeList.2 h0)
    (List.Forall₂.cons (mem_rangeList.2 h1)
      (List.Forall₂.cons (mem_rangeList.2 h2)
        (List.Forall₂.cons (mem_rangeList.2 h3)
          (List.Forall₂.cons (mem_rangeList.2 h4)
            (List.Forall₂.cons (mem_rangeList.2 h5)
              (List.Forall₂.cons (mem_rangeList.2 h6)
                (List.Forall₂.cons (mem_rangeList.2 h7)
                  (List.Forall₂.cons (mem_rangeList.2 h8)
                    (List.Forall₂.cons (mem_rangeList.2 h9) List.Forall₂.nil)))))))))

theorem satAll_cp_of {x0 x1 x2 x3 x4 x5 x6 x7 x8 x9 : Int}
    (hnd : ([x0, x1, x2, x3, x4, x5, x6, x7, x8, x9] : List Int).Nodup)
    (heq : 10 * x0 + x1 + 10 * x2 + x3 + 100 * x4 + 10 * x5 + x6
      - 1000 * x7 - 100 * x8 - 10 * x5 - x9 = 0) :
    satAll cpIsFunModel.constrs [x0, x1, x2, x3, x4, x5, x6, x7, x8, x9] := by
  intro c hc
  have hc2 : c = Constr.allDiff [0, 1, 2, 3, 4, 5, 6, 7, 8, 9] ∨
      c = Constr.linEq [(10, 0), (1, 1), (10, 2), (1, 3), (100, 4), (10, 5), (1, 6),
        (-1000, 7), (-100, 8), (-10, 5), (-1, 9)] 0 := by
    simpa [cpIsFunModel] using hc
  have e0 : getVal [x0, x1, x2, x3, x4, x5, x6, x7, x8, x9] 0 = x0 := rfl
  have e1 : getVal [x0, x1, x2, x3, x4, x5, x6, x7, x8, x9] 1 = x1 := rfl
  have e2 : getVal [x0, x1, x2, x3, x4, x5, x6, x7, x8, x9] 2 = x2 := rfl
  have e3 : getVal [x0, x1, x2, x3, x4, x5, x6, x7, x8, x9] 3 = x3 := rfl
  have e4 : getVal [x0, x1, x2, x3, x4, x5, x6, x7, x8, x9] 4 = x4 := rfl
  have e5 : getVal [x0, x1, x2, x3, x4, x5, x6, x7, x8, x9] 5 = x5 := rfl
  have e6 : getVal [x0, x1, x2, x3, x4, x5, x6, x7, x8, x9] 6 = x6 := rfl
  have e7 : getVal [x0, x1, x2, x3, x4, x5, x6, x7, x8, x9] 7 = x7 := rfl
  have e8 : getVal [x0, x1, x2, x3, x4, x5, x6, x7, x8, x9] 8 = x8 := rfl
  have e9 : getVal [x0, x1, x2, x3, x4, x5, x6, x7, x8, x9] 9 = x9 := rfl
  rcases hc2 with rfl | rfl
  · show (([0, 1, 2, 3, 4, 5, 6, 7, 8, 9] : List Nat).map
      (fun i => getVal [x0, x1, x2, x3, x4, x5, x6, x7, x8, x9] i)).Nodup
    simp only [List.map_cons, List.map_nil, e0, e1, e2, e3, e4, e5, e6, e7, e8, e9]
    exact hnd
  · show termsSum [x0, x1, x2, x3, x4, x5, x6, x7, x8, x9]
      [(10, 0), (1, 1), (10, 2), (1, 3), (100, 4), (10, 5), (1, 6),
       (-1000, 7), (-100, 8), (-10, 5), (-1, 9)] = 0
    simp only [termsSum, List.map_cons, List.map_nil, List.sum_cons, List.sum_nil,
      e0, e1, e2, e3, e4, e5, e6, e7, e8, e9]
    omega

theorem crypto_case_mem8 {p : List Int}
    (hp : p ∈ (List.permutations' cryptoBase8).filter (reducedEqB 8)) :
    embed 8 p ∈ bruteSols cpIsFunModel := by
  have hperm : p.Perm cryptoBase8 := List.mem_permutations'.1 (List.mem_of_mem_filter hp)
  have hpred : reducedEqB 8 p = true := List.of_mem_filter hp
  have hlen : p.length = 7 := hperm.length_eq.trans rfl
  obtain ⟨y0, y1, y2, y3, y4, y5, y6, rfl⟩ := list_eq_of_length_seven hlen
  clear hp hlen
  have m0 : y0 ∈ cryptoBase8 := hperm.subset (by simp)
  have m1 : y1 ∈ cryptoBase8 := hperm.subset (by simp)
  have m2 : y2 ∈ cryptoBase8 := hperm.subset (by simp)
  have m3 : y3 ∈ cryptoBase8 := hperm.subset (by simp)
  have m4 : y4 ∈ cryptoBase8 := hperm.subset (by simp)
  have m5 : y5 ∈ cryptoBase8 := hperm.subset (by simp)
  have m6 : y6 ∈ cryptoBase8 := hperm.subset (by simp)
  have f0 := mem_cryptoBase8_facts m0
  have f1 := mem_cryptoBase8_facts m1
  have f2 := mem_cryptoBase8_facts m2
  have f3 := mem_cryptoBase8_facts m3
  have f4 := mem_cryptoBase8_facts m4
  have f5 := mem_cryptoBase8_facts m5
  have f6 := mem_cryptoBase8_facts m6
  clear m0 m1 m2 m3 m4 m5 m6
  have s1 : (([y0, y1, y2, y3] : List Int) ++ (8 : Int) :: [y4, y5, 1, 0, y6]).Perm
      ((8 : Int) :: ([y0, y1, y2, y3] ++ [y4, y5, 1, 0, y6])) := List.perm_middle
  have s2 : (([y0, y1, y2, y3, y4, y5] : List Int) ++ (1 : Int) :: [0, y6]).Perm
      ((1 : Int) :: ([y0, y1, y2, y3, y4, y5] ++ [0, y6])) := List.perm_middle
  have s3 : (([y0, y1, y2, y3, y4, y5] : List Int) ++ (0 : Int) :: [y6]).Perm
      ((0 : Int) :: ([y0, y1, y2, y3, y4, y5] ++ [y6])) := List.perm_middle
  have hpm : ([y0, y1, y2, y3, (8 : Int), y4, y5, 1, 0, y6] : List Int).Perm
      ((8 : Int) :: 1 :: 0 :: [y0, y1, y2, y3, y4, y5, y6]) :=
    s1.trans (List.Perm.cons 8 (s2.trans (List.Perm.cons 1 s3)))
  have hnd10 : ([y0, y1, y2, y3, (8 : Int), y4, y5, 1, 0, y6] : List Int).Nodup :=
    ((hpm.trans (List.Perm.cons 8 (List.Perm.cons 1 (List.Perm.cons 0 hperm)))).nodup_iff).2
      (by decide)
  have heqn : 10 * y0 + y1 + 10 * y2 + y3 + 100 * 8 + y5 = 1000 + y6 := by
    rw [show reducedEqB 8 [y0, y1, y2, y3, y4, y5, y6] =
        decide (10 * y0 + y1 + 10 * y2 + y3 + 100 * 8 + y5 = 1000 + y6) from rfl,
      decide_eq_true_eq] at hpred
    exact hpred
  clear hpred hperm hpm s1 s2 s3
  show ([y0, y1, y2, y3, (8 : Int), y4, y5, 1, 0, y6] : List Int) ∈ bruteSols cpIsFunModel
  refine mem_bruteSols.2 ⟨?_, ?_⟩
  · exact supported_cp_of (by omega) (by omega) (by omega) (by omega) (by norm_num)
      (by omega) (by omega) (by norm_num) (by norm_num) (by omega)
  · refine satAll_cp_of hnd10 ?_
    omega

theorem crypto_case_mem9 {p : List Int}
    (hp : p ∈ (List.permutations' cryptoBase9).filter (reducedEqB 9)) :
    embed 9 p ∈ bruteSols cpIsFunModel := by
  have hperm : p.Perm cryptoBase9 := List.mem_permutations'.1 (List.mem_of_mem_filter hp)
  have hpred : reducedEqB 9 p = true := List.of_mem_filter hp
  have hlen : p.length = 7 := hperm.length_eq.trans rfl
  obtain ⟨y0, y1, y2, y3, y4, y5, y6, rfl⟩ := list_eq_of_length_seven hlen
  clear hp hlen
  have m0 : y0 ∈ cryptoBase9 := hperm.subset (by simp)
  have m1 : y1 ∈ cryptoBase9 := hperm.subset (by simp)
  have m2 : y2 ∈ cryptoBase9 := hperm.subset (by simp)
  have m3 : y3 ∈ cryptoBase9 := hperm.subset (by simp)
  have m4 : y4 ∈ cryptoBase9 := hperm.subset (by simp)
  have m5 : y5 ∈ cryptoBase9 := hperm.subset (by simp)
  have m6 : y6 ∈ cryptoBase9 := hperm.subset (by simp)
  have f0 := mem_cryptoBase9_facts m0
  have f1 := mem_cryptoBase9_facts m1
  have f2 := mem_cryptoBase9_facts m2
  have f3 := mem_cryptoBase9_facts m3
  have f4 := mem_cryptoBase9_facts m4
  have f5 := mem_cryptoBase9_facts m5
  have f6 := mem_cryptoBase9_facts m6
  clear m0 m1 m2 m3 m4 m5 m6
  have s1 : (([y0, y1, y2, y3] : List Int) ++ (9 : Int) :: [y4, y5, 1, 0, y6]).Perm
      ((9 : Int) :: ([y0, y1, y2, y3] ++ [y4, y5, 1, 0, y6])) := List.perm_middle
  have s2 : (([y0, y1, y2, y3, y4, y5] : List Int) ++ (1 : Int) :: [0, y6]).Perm
      ((1 : Int) :: ([y0, y1, y2, y3, y4, y5] ++ [0, y6])) := List.perm_middle
  have s3 : (([y0, y1, y2, y3, y4, y5] : List Int) ++ (0 : Int) :: [y6]).Perm
      ((0 : Int) :: ([y0, y1, y2, y3, y4, y5] ++ [y6])) := List.perm_middle
  have hpm : ([y0, y1, y2, y3, (9 : Int), y4, y5, 1, 0, y6] : List Int).Perm
      ((9 : Int) :: 1 :: 0 :: [y0, y1, y2, y3, y4, y5, y6]) :=
    s1.trans (List.Perm.cons 9 (s2.trans (List.Perm.cons 1 s3)))
  have hnd10 : ([y0, y1, y2, y3, (9 : Int), y4, y5, 1, 0, y6] : List Int).Nodup :=
    ((hpm.trans (List.Perm.cons 9 (List.Perm.cons 1 (List.Perm.cons 0 hperm)))).nodup_iff).2
      (by decide)
  have heqn : 10 * y0 + y1 + 10 * y2 + y3 + 100 * 9 + y5 = 1000 + y6 := by
    rw [show reducedEqB 9 [y0, y1, y2, y3, y4, y5, y6] =
        decide (10 * y0 + y1 + 10 * y2 + y3 + 100 * 9 + y5 = 1000 + y6) from rfl,
      decide_eq_true_eq] at hpred
    exact hpred
  clear hpred hperm hpm s1 s2 s3
  show ([y0, y1, y2, y3, (9 : Int), y4, y5, 1, 0, y6] : List Int) ∈ bruteSols cpIsFunModel
  refine mem_bruteSols.2 ⟨?_, ?_⟩
  · exact supported_cp_of (by omega) (by omega) (by omega) (by omega) (by norm_num)
      (by omega) (by omega) (by norm_num) (by norm_num) (by omega)
  · refine satAll_cp_of hnd10 ?_
    omega

theorem bruteSols_cp_mem_witness {a : Assignment}
    (h : a ∈ bruteSols cpIsFunModel) : a ∈ cryptoWitnessList := by
  obtain ⟨hsupp, hsat⟩ := mem_bruteSols.1 h
  clear h
  rw [show initDoms cpIsFunModel =
      [rangeList 1 9, rangeList 0 9, rangeList 1 9, rangeList 0 9, rangeList 1 9,
       rangeList 0 9, rangeList 0 9, rangeList 1 9, rangeList 0 9, rangeList 0 9]
    from rfl] at hsupp
  obtain ⟨x0, t0, hm0, hs1, rfl⟩ := List.forall₂_cons_left_iff.1 hsupp
  obtain ⟨x1, t1, hm1, hs2, rfl⟩ := List.forall₂_cons_left_iff.1 hs1
  obtain ⟨x2, t2, hm2, hs3, rfl⟩ := List.forall₂_cons_left_iff.1 hs2
  obtain ⟨x3, t3, hm3, hs4, rfl⟩ := List.forall₂_cons_left_iff.1 hs3
  obtain ⟨x4, t4, hm4, hs5, rfl⟩ := List.forall₂_cons_left_iff.1 hs4
  obtain ⟨x5, t5, hm5, hs6, rfl⟩ := List.forall₂_cons_left_iff.1 hs5
  obtain ⟨x6, t6, hm6, hs7, rfl⟩ := List.forall₂_cons_left_iff.1 hs6
  obtain ⟨x7, t7, hm7, hs8, rfl⟩ := List.forall₂_cons_left_iff.1 hs7
  obtain ⟨x8, t8, hm8, hs9, rfl⟩ := List.forall₂_cons_left_iff.1 hs8
  obtain ⟨x9, t9, hm9, hs10, rfl⟩ := List.forall₂_cons_left_iff.1 hs9
  obtain rfl : t9 = [] := List.forall₂_nil_left_iff.1 hs10
  have hb0 := mem_rangeList.1 hm0
  have hb1 := mem_rangeList.1 hm1
  have hb2 := mem_rangeList.1 hm2
  have hb3 := mem_rangeList.1 hm3
  have hb4 := mem_rangeList.1 hm4
  have hb5 := mem_rangeList.1 hm5
  have hb6 := mem_rangeList.1 hm6
  have hb7 := mem_rangeList.1 hm7
  have hb8 := mem_rangeList.1 hm8
  have hb9 := mem_rangeList.1 hm9
  clear hm0 hm1 hm2 hm3 hm4 hm5 hm6 hm7 hm8 hm9 hsupp
  have hnd10 : ([x0, x1, x2, x3, x4, x5, x6, x7, x8, x9] : List Int).Nodup :=
    hsat _ (List.mem_cons_self _ _)
  have heq0 := hsat _ (List.mem_cons_of_mem _ (List.mem_cons_self _ _))
  clear hsat
  have e0 : getVal [x0, x1, x2, x3, x4, x5, x6, x7, x8, x9] 0 = x0 := rfl
  have e1 : getVal [x0, x1, x2, x3, x4, x5, x6, x7, x8, x9] 1 = x1 := rfl
  have e2 : getVal [x0, x1, x2, x3, x4, x5, x6, x7, x8, x9] 2 = x2 := rfl
  have e3 : getVal [x0, x1, x2, x3, x4, x5, x6, x7, x8, x9] 3 = x3 := rfl
  have e4 : getVal [x0, x1, x2, x3, x4, x5, x6, x7, x8, x9] 4 = x4 := rfl
  have e5 : getVal [x0, x1, x2, x3, x4, x5, x6, x7, x8, x9] 5 = x5 := rfl
  have e6 : getVal [x0, x1, x2, x3, x4, x5, x6, x7, x8, x9] 6 = x6 := rfl
  have e7 : getVal [x0, x1, x2, x3, x4, x5, x6, x7, x8, x9] 7 = x7 := rfl
  have e8 : getVal [x0, x1, x2, x3, x4, x5, x6, x7, x8, x9] 8 = x8 := rfl
  have e9 : getVal [x0, x1, x2, x3, x4, x5, x6, x7, x8, x9] 9 = x9 := rfl
  simp only [constrSat, termsSum, List.map_cons, List.map_nil, List.sum_cons,
    List.sum_nil, e0, e1, e2, e3, e4, e5, e6, e7, e8, e9] at heq0
  clear e0 e1 e2 e3 e4 e5 e6 e7 e8 e9
  have n78 : x7 ≠ x8 :=
    getVal_ne_of_nodup hnd10 (i := 7) (j := 8) (by simp) (by simp) (by decide)
  have n04 : x0 ≠ x4 :=
    getVal_ne_of_nodup hnd10 (i := 0) (j := 4) (by simp) (by simp) (by decide)
  have n07 : x0 ≠ x7 :=
    getVal_ne_of_nodup hnd10 (i := 0) (j := 7) (by simp) (by simp) (by decide)
  have n08 : x0 ≠ x8 :=
    getVal_ne_of_nodup hnd10 (i := 0) (j := 8) (by simp) (by simp) (by decide)
  have n14 : x1 ≠ x4 :=
    getVal_ne_of_nodup hnd10 (i := 1) (j := 4) (by simp) (by simp) (by decide)
  have n17 : x1 ≠ x7 :=
    getVal_ne_of_nodup hnd10 (i := 1) (j := 7) (by simp) (by simp) (by decide)
  have n18 : x1 ≠ x8 :=
    getVal_ne_of_nodup hnd10 (i := 1) (j := 8) (by simp) (by simp) (by decide)
  have n24 : x2 ≠ x4 :=
    getVal_ne_of_nodup hnd10 (i := 2) (j := 4) (by simp) (by simp) (by decide)
  have n27 : x2 ≠ x7 :=
    getVal_ne_of_nodup hnd10 (i := 2) (j := 7) (by simp) (by simp) (by decide)
  have n28 : x2 ≠ x8 :=
    getVal_ne_of_nodup hnd10 (i := 2) (j := 8) (by simp) (by simp) (by decide)
  have n34 : x3 ≠ x4 :=
    getVal_ne_of_nodup hnd10 (i := 3) (j := 4) (by simp) (by simp) (by decide)
  have n37 : x3 ≠ x7 :=
    getVal_ne_of_nodup hnd10 (i := 3) (j := 7) (by simp) (by simp) (by decide)
  have n38 : x3 ≠ x8 :=
    getVal_ne_of_nodup hnd10 (i := 3) (j := 8) (by simp) (by simp) (by decide)
  have n54 : x5 ≠ x4 :=
    getVal_ne_of_nodup hnd10 (i := 5) (j := 4) (by simp) (by simp) (by decide)
  have n57 : x5 ≠ x7 :=
    getVal_ne_of_nodup hnd10 (i := 5) (j := 7) (by simp) (by simp) (by decide)
  have n58 : x5 ≠ x8 :=
    getVal_ne_of_nodup hnd10 (i := 5) (j := 8) (by simp) (by simp) (by decide)
  have n64 : x6 ≠ x4 :=
    getVal_ne_of_nodup hnd10 (i := 6) (j := 4) (by simp) (by simp) (by decide)
  have n67 : x6 ≠ x7 :=
    getVal_ne_of_nodup hnd10 (i := 6) (j := 7) (by simp) (by simp) (by decide)
  have n68 : x6 ≠ x8 :=
    getVal_ne_of_nodup hnd10 (i := 6) (j := 8) (by simp) (by simp) (by decide)
  have n94 : x9 ≠ x4 :=
    getVal_ne_of_nodup hnd10 (i := 9) (j := 4) (by simp) (by simp) (by decide)
  have n97 : x9 ≠ x7 :=
    getVal_ne_of_nodup hnd10 (i := 9) (j := 7) (by simp) (by simp) (by decide)
  have n98 : x9 ≠ x8 :=
    getVal_ne_of_nodup hnd10 (i := 9) (j := 8) (by simp) (by simp) (by decide)
  have hsub7 : ([x0, x1, x2, x3, x5, x6, x9] : List Int).Sublist
      [x0, x1, x2, x3, x4, x5, x6, x7, x8, x9] :=
    List.Sublist.cons₂ _ (List.Sublist.cons₂ _ (List.Sublist.cons₂ _
      (List.Sublist.cons₂ _ (List.Sublist.cons _ (List.Sublist.cons₂ _
        (List.Sublist.cons₂ _ (List.Sublist.cons _ (List.Sublist.cons _
          (List.Sublist.cons₂ _ List.Sublist.slnil)))))))))
  have hnd7 : ([x0, x1, x2, x3, x5, x6, x9] : List Int).Nodup :=
    List.Nodup.sublist hsub7 hnd10
  clear hnd10 hsub7
  obtain ⟨rfl, rfl, hf⟩ : x7 = 1 ∧ x8 = 0 ∧ (x4 = 8 ∨ x4 = 9) := by
    clear n04 n07 n08 n14 n17 n18 n24 n27 n28 n34 n37 n38 n54 n57 n58 n64 n67 n68
      n94 n97 n98 hnd7
    omega
  rcases hf with rfl | rfl
  · refine List.mem_append.2 (Or.inl ?_)
    refine List.mem_map.2 ⟨[x0, x1, x2, x3, x5, x6, x9], ?_, rfl⟩
    refine List.mem_filter.2 ⟨?_, ?_⟩
    · refine List.mem_permutations'.2 ?_
      have hsubB : ([x0, x1, x2, x3, x5, x6, x9] : List Int) ⊆ cryptoBase8 := by
        intro z hz
        simp only [List.mem_cons, List.not_mem_nil, or_false] at hz
        rcases hz with rfl | rfl | rfl | rfl | rfl | rfl | rfl
        · exact mem_cryptoBase8_of (le_trans zero_le_one hb0.1) hb0.2 n08 n07 n04
        · exact mem_cryptoBase8_of hb1.1 hb1.2 n18 n17 n14
        · exact mem_cryptoBase8_of (le_trans zero_le_one hb2.1) hb2.2 n28 n27 n24
        · exact mem_cryptoBase8_of hb3.1 hb3.2 n38 n37 n34
        · exact mem_cryptoBase8_of hb5.1 hb5.2 n58 n57 n54
        · exact mem_cryptoBase8_of hb6.1 hb6.2 n68 n67 n64
        · exact mem_cryptoBase8_of hb9.1 hb9.2 n98 n97 n94
      exact (List.Nodup.subperm hnd7 hsubB).perm_of_length_le (by simp [cryptoBase8])
    · rw [show reducedEqB 8 [x0, x1, x2, x3, x5, x6, x9] =
          decide (10 * x0 + x1 + 10 * x2 + x3 + 100 * 8 + x6 = 1000 + x9) from rfl,
        decide_eq_true_eq]
      clear n04 n07 n08 n14 n17 n18 n24 n27 n28 n34 n37 n38 n54 n57 n58 n64 n67 n68
        n94 n97 n98 hnd7 n78
      omega
  · refine List.mem_append.2 (Or.inr ?_)
    refine List.mem_map.2 ⟨[x0, x1, x2, x3, x5, x6, x9], ?_, rfl⟩
    refine List.mem_filter.2 ⟨?_, ?_⟩
    · refine List.mem_permutations'.2 ?_
      have hsubB : ([x0, x1, x2, x3, x5, x6, x9] : List Int) ⊆ cryptoBase9 := by
        intro z hz
        simp only [List.mem_cons, List.not_mem_nil, or_false] at hz
        rcases hz with rfl | rfl | rfl | rfl | rfl | rfl | rfl
        · exact mem_cryptoBase9_of (le_trans zero_le_one hb0.1) hb0.2 n08 n07 n04
        · exact mem_cryptoBase9_of hb1.1 hb1.2 n18 n17 n14
        · exact mem_cryptoBase9_of (le_trans zero_le_one hb2.1) hb2.2 n28 n27 n24
        · exact mem_cryptoBase9_of hb3.1 hb3.2 n38 n37 n34
        · exact mem_cryptoBase9_of hb5.1 hb5.2 n58 n57 n54
        · exact mem_cryptoBase9_of hb6.1 hb6.2 n68 n67 n64
        · exact mem_cryptoBase9_of hb9.1 hb9.2 n98 n97 n94
      exact (List.Nodup.subperm hnd7 hsubB).perm_of_length_le (by simp [cryptoBase9])
    · rw [show reducedEqB 9 [x0, x1, x2, x3, x5, x6, x9] =
          decide (10 * x0 + x1 + 10 * x2 + x3 + 100 * 9 + x6 = 1000 + x9) from rfl,
        decide_eq_true_eq]
      clear n04 n07 n08 n14 n17 n18 n24 n27 n28 n34 n37 n38 n54 n57 n58 n64 n67 n68
        n94 n97 n98 hnd7 n78
      omega

theorem mem_bruteSols_cp {a : Assignment} :
    a ∈ bruteSols cpIsFunModel ↔ a ∈ cryptoWitnessList := by
  constructor
  · exact bruteSols_cp_mem_witness
  · intro h
    rcases List.mem_append.1 h with h | h
    · obtain ⟨p, hpf, rfl⟩ := List.mem_map.1 h
      exact crypto_case_mem8 hpf
    · obtain ⟨p, hpf, rfl⟩ := List.mem_map.1 h
      exact crypto_case_mem9 hpf

end CPCore

namespace CPCore

/-! Round-trip of the undo trail: narrowing then restoring to a checkpoint
recovers the exact previous store. -/

theorem restore_mark_self (s : DomainStore) : restore (mark s) s = s := by
  obtain ⟨doms, tr⟩ := s
  cases tr with
  | nil => rfl
  | cons e tr =>
    obtain ⟨i, d⟩ := e
    simp [restore, mark, restoreAux]

theorem restore_narrow {s s2 : DomainStore} {i : Nat} {d : Domain}
    (h : narrow s i d = some s2) {cp : Nat} (hcp : cp ≤ s.trail.length) :
    restore cp s2 = restore cp s := by
  unfold narrow at h
  by_cases he : d.isEmpty
  · rw [if_pos he] at h
    exact Option.noConfusion h
  · rw [if_neg he] at h
    have h2 := Option.some.inj h
    subst h2
    show restoreAux cp ((i, getDom s.domains i) :: s.trail) (setDom s.domains i d) =
      restoreAux cp s.trail s.domains
    simp only [restoreAux]
    have hgt : ¬ (s.trail.length + 1 ≤ cp) := by omega
    rw [if_neg hgt, setDom_setDom, setDom_getDom]

theorem narrow_trail_length {s s2 : DomainStore} {i : Nat} {d : Domain}
    (h : narrow s i d = some s2) : s2.trail.length = s.trail.length + 1 := by
  unfold narrow at h
  by_cases he : d.isEmpty
  · rw [if_pos he] at h
    exact Option.noConfusion h
  · rw [if_neg he] at h
    have h2 := Option.some.inj h
    subst h2
    rfl

theorem applyNarrows_restore : ∀ (ops : List (Nat × Domain)) (s s2 : DomainStore),
    applyNarrows s ops = some s2 → ∀ cp ≤ s.trail.length,
    restore cp s2 = restore cp s := by
  intro ops
  induction ops with
  | nil =>
    intro s s2 h cp _
    cases h
    rfl
  | cons op ops ih =>
    intro s s2 h cp hcp
    obtain ⟨i, d⟩ := op
    unfold applyNarrows at h
    cases hn : narrow s i d with
    | none => rw [hn] at h; cases h
    | some s1 =>
      rw [hn] at h
      simp only at h
      have h1 := ih s1 s2 h cp (by rw [narrow_trail_length hn]; omega)
      rw [h1, restore_narrow hn hcp]

end CPCore

namespace CPCore

/-! Every reachable domain state refines the initial one. -/

theorem reach_domsLe {cs : List Constr} {ds0 ds : Doms} (h : Reach cs ds0 ds) :
    DomsLe ds ds0 := by
  induction h with
  | refl => exact DomsLe.refl ds0
  | prop ds1 ds2 fuel _ hpf ih =>
    exact (propagateFix_sublist fuel cs ds1 ds2 hpf).trans ih
  | branch ds1 i v _ hv ih =>
    exact (DomsLe.setDom_left (List.singleton_sublist.2 hv)).trans ih

end CPCore

namespace CPCore

/-! The engine's transition relation is deterministic, so complete runs
from the same start state are unique. -/

theorem step_deterministic {cs : List Constr} {s t1 t2 : EngineState}
    (h1 : Step cs s t1) (h2 : Step cs s t2) : t1 = t2 := by
  cases h1 <;> cases h2 <;> simp_all

theorem run_unique {cs : List Constr} {s : EngineState} {tr1 : List EngineState}
    (h1 : Run cs s tr1) : ∀ tr2, Run cs s tr2 → tr1 = tr2 := by
  induction h1 with
  | last s hns =>
    intro tr2 h2
    cases h2 with
    | last _ => rfl
    | step _ t tr hst _ => exact absurd hst (hns t)
  | step s t tr hst htr ih =>
    intro tr2 h2
    cases h2 with
    | last _ hns => exact absurd hst (hns t)
    | step _ t2 tr2 hst2 htr2 =>
      cases step_deterministic hst hst2
      rw [ih tr2 htr2]

end CPCore

namespace LpPart

/-! The notebook's linear program: the objective is bounded by 4 on the
feasible region and the bound is attained at x = 1, y = 1. -/

theorem list_eq_of_length_two {x : List ℚ} (h : x.length = 2) :
    ∃ a b, x = [a, b] := by
  rcases x with _ | ⟨a, x⟩
  · simp at h
  rcases x with _ | ⟨b, x⟩
  · simp at h
  rcases x with _ | ⟨c, x⟩
  · exact ⟨a, b, rfl⟩
  · simp at h

theorem simpleLp_value_le {x : List ℚ} (h : lpFeasible simpleLp x) :
    lpValue x simpleLp.objCoeffs ≤ 4 := by
  obtain ⟨hlen, hb, hc⟩ := h
  have hlen2 : x.length = 2 := hlen
  obtain ⟨a, b, rfl⟩ := list_eq_of_length_two hlen2
  have hb0 := hb 0 (by norm_num)
  have hb1 := hb 1 (by norm_num)
  have hc0 := hc ⟨0, 2, [(1, 0), (1, 1)]⟩ (by simp [simpleLp])
  simp only [simpleLp, lpValue, List.map_cons, List.map_nil, List.sum_cons,
    List.sum_nil, List.getD_cons_zero, List.getD_cons_succ] at hb0 hb1 hc0 ⊢
  linarith [hb0.1, hb0.2, hb1.1, hb1.2, hc0.1, hc0.2]

theorem simpleLp_feasible_one_one : lpFeasible simpleLp [1, 1] := by
  refine ⟨rfl, ?_, ?_⟩
  · intro i hi
    have hi2 : i < 2 := hi
    interval_cases i
    · constructor <;> norm_num [simpleLp]
    · constructor <;> norm_num [simpleLp]
  · intro c hcm
    have hcm2 : c = ⟨0, 2, [(1, 0), (1, 1)]⟩ := by
      simpa [simpleLp] using hcm
    subst hcm2
    constructor <;>
      · simp only [lpValue, List.map_cons, List.map_nil, List.sum_cons, List.sum_nil,
          List.getD_cons_zero, List.getD_cons_succ]
        norm_num

theorem simpleLp_value_one_one : lpValue [1, 1] simpleLp.objCoeffs = 4 := by
  simp only [simpleLp, lpValue, List.map_cons, List.map_nil, List.sum_cons,
    List.sum_nil, List.getD_cons_zero, List.getD_cons_succ]
  norm_num

end LpPart

namespace CPCore

/-! Concrete evaluations of the engine on the notebook's small models, and
the resulting count for the cryptarithmetic model. -/

theorem solve_xyz_all_eq :
    (solve xyzModel Mode.allSolutions).solutions = phaseRecordedXyz := by decide

theorem bruteSols_xyz_length : (bruteSols xyzModel).length = 18 := by decide

theorem solve_xyz_first_eq :
    solve xyzModel Mode.firstSolution =
      ⟨Status.feasible, [[0, 1, 0]], none⟩ := by decide

theorem solve_xyzOpt_obj :
    (solve xyzOptModel Mode.optMax).objectiveValue = some 11 := by decide

theorem solve_xyzOpt_status :
    (solve xyzOptModel Mode.optMax).status = Status.optimal := by decide

theorem brute_opt_bound :
    ∀ a ∈ bruteSols xyzOptModel, objVal [(1, 0), (2, 1), (3, 2)] a ≤ 11 := by decide

theorem cpSat_perm_phase : cpSatRecordedXyz.Perm phaseRecordedXyz := by decide

theorem cpSat_ne_phase : cpSatRecordedXyz ≠ phaseRecordedXyz := by decide

theorem nodup_cpSatRecordedXyz : cpSatRecordedXyz.Nodup := by decide

set_option maxHeartbeats 8000000 in
theorem length_cryptoWitnessList : cryptoWitnessList.length = 72 := by decide

theorem valid_cpIsFun : validModel cpIsFunModel = true := by decide

theorem bruteSols_cp_perm : (bruteSols cpIsFunModel).Perm cryptoWitnessList :=
  (List.perm_ext_iff_of_nodup (nodup_bruteSols _) nodup_cryptoWitnessList).2
    (fun _ => mem_bruteSols_cp)

theorem bruteSols_cp_length : (bruteSols cpIsFunModel).length = 72 :=
  bruteSols_cp_perm.length_eq.trans length_cryptoWitnessList

end CPCore

namespace CPCore

/-- C1: For the model with variables x, y, z each with domain {0,1,2} and the
single constraint x ≠ y, AllSolutions mode returns exactly 18 complete
assignments with no duplicates, and they are exactly (up to order) the
assignments within bounds satisfying the constraint as found by brute-force
enumeration, whose count is also 18. -/
theorem claim_C1 :
    (solve xyzModel Mode.allSolutions).solutions.length = 18 ∧
    (solve xyzModel Mode.allSolutions).solutions.Nodup ∧
    ((solve xyzModel Mode.allSolutions).solutions).Perm (bruteSols xyzModel) ∧
    (bruteSols xyzModel).length = 18 := by
  rw [solve_xyz_all_eq]
  exact ⟨by decide, by decide, by decide, bruteSols_xyz_length⟩

/-- C2: For the cryptarithmetic model CP + IS + FUN = TRUE with the ten
letters over base-10 digits, all different, leading letters at least 1,
AllSolutions mode returns exactly 72 assignments with no duplicates, and
they are exactly (up to order) the brute-force satisfying assignments,
whose count is also 72. -/
theorem claim_C2 :
    (solve cpIsFunModel Mode.allSolutions).solutions.length = 72 ∧
    (solve cpIsFunModel Mode.allSolutions).solutions.Nodup ∧
    ((solve cpIsFunModel Mode.allSolutions).solutions).Perm (bruteSols cpIsFunModel) ∧
    (bruteSols cpIsFunModel).length = 72 :=
  ⟨(solve_allSolutions_length valid_cpIsFun).trans bruteSols_cp_length,
   nodup_solve_allSolutions valid_cpIsFun,
   solve_allSolutions_perm_brute valid_cpIsFun,
   bruteSols_cp_length⟩

/-- C3: For the model with x, y, z in {0,1,2}, constraint x ≠ y and objective
maximize x + 2y + 3z, Optimize mode reports objective value 11 with status
optimal, and 11 is greater than or equal to the objective value of every
assignment within bounds that satisfies the constraints. -/
theorem claim_C3 :
    (solve xyzOptModel Mode.optMax).objectiveValue = some 11 ∧
    (solve xyzOptModel Mode.optMax).status = Status.optimal ∧
    ∀ a, Supported (initDoms xyzOptModel) a → satAll xyzOptModel.constrs a →
      objVal ((xyzOptModel.objective).getD []) a ≤ 11 :=
  ⟨solve_xyzOpt_obj, solve_xyzOpt_status,
   fun a h1 h2 => brute_opt_bound a (mem_bruteSols.2 ⟨h1, h2⟩)⟩

theorem claim_C3_witness :
    objVal ((xyzOptModel.objective).getD []) [1, 2, 2] ≤ 11 :=
  claim_C3.2.2 [1, 2, 2]
    (List.Forall₂.cons (by decide)
      (List.Forall₂.cons (by decide)
        (List.Forall₂.cons (by decide) List.Forall₂.nil)))
    (by decide)

/-- C4: For the model with x, y, z in {0,1,2}, constraint x ≠ y and no
objective, FirstSolution mode returns exactly one complete assignment, that
assignment satisfies x ≠ y, and the status is Feasible. -/
theorem claim_C4 :
    (solve xyzModel Mode.firstSolution).solutions.length = 1 ∧
    (∀ a ∈ (solve xyzModel Mode.firstSolution).solutions,
      constrSat a (Constr.notEq 0 1)) ∧
    (solve xyzModel Mode.firstSolution).status = Status.feasible := by
  rw [solve_xyz_first_eq]
  exact ⟨rfl, by decide, rfl⟩

/-- C5: For every domain store and every sequence of narrow operations
performed after a mark, restoring to the checkpoint returned by mark yields
exactly the store present when mark was called — in particular exactly the
same per-variable domains. -/
theorem claim_C5 (s s2 : DomainStore) (ops : List (Nat × Domain))
    (h : applyNarrows s ops = some s2) :
    restore (mark s) s2 = s ∧ (restore (mark s) s2).domains = s.domains := by
  have h1 : restore (mark s) s2 = restore (mark s) s :=
    applyNarrows_restore ops s s2 h (mark s) (Nat.le_refl _)
  rw [h1, restore_mark_self]
  exact ⟨rfl, rfl⟩

theorem claim_C5_witness :
    restore (mark (⟨[[0, 1], [2, 3]], []⟩ : DomainStore))
        (⟨[[1], [3]], [(1, [2, 3]), (0, [0, 1])]⟩ : DomainStore) =
      (⟨[[0, 1], [2, 3]], []⟩ : DomainStore) :=
  (claim_C5 ⟨[[0, 1], [2, 3]], []⟩ ⟨[[1], [3]], [(1, [2, 3]), (0, [0, 1])]⟩
    [(0, [1]), (1, [3])] (by decide)).1

/-- C6: In every domain state reachable from the initial domains by solver
operations (propagation and branching; restore only returns to a previously
reached state), every variable's domain is a sublist of its initial domain,
so every value in it stays within the variable's declared bounds. -/
theorem claim_C6 (m : Model) (ds : Doms)
    (h : Reach m.constrs (initDoms m) ds) (i : Nat) :
    List.Sublist (getDom ds i) (getDom (initDoms m) i) ∧
    ∀ v ∈ getDom ds i, varLo m i ≤ v ∧ v ≤ varHi m i := by
  have hsub := (reach_domsLe h).getDom_sublist i
  refine ⟨hsub, ?_⟩
  intro v hv
  have hv0 : v ∈ getDom (initDoms m) i := hsub.subset hv
  by_cases hi : i < m.vars.length
  · rw [getDom_initDoms hi] at hv0
    exact mem_rangeList.1 hv0
  · rw [getDom_eq_nil_of_le (by rw [length_initDoms]; omega)] at hv0
    cases hv0

theorem claim_C6_witness :
    List.Sublist (getDom (setDom (initDoms xyzModel) 0 [1]) 0)
      (getDom (initDoms xyzModel) 0) :=
  (claim_C6 xyzModel (setDom (initDoms xyzModel) 0 [1])
    (Reach.branch (initDoms xyzModel) 0 1 Reach.refl (by decide)) 0).1

/-- C7: For every model and mode, solve reports modelInvalid exactly when
model validation fails at build time; for a valid model the outcome status
is always one of the normal statuses feasible, optimal or infeasible —
internal propagation failures never surface as an error. -/
theorem claim_C7 (m : Model) (mode : Mode) :
    ((solve m mode).status = Status.modelInvalid ↔ validModel m = false) ∧
    (validModel m = true →
      (solve m mode).status = Status.feasible ∨
      (solve m mode).status = Status.optimal ∨
      (solve m mode).status = Status.infeasible) := by
  by_cases hv : validModel m = true
  · have hnorm : (solve m mode).status = Status.feasible ∨
        (solve m mode).status = Status.optimal ∨
        (solve m mode).status = Status.infeasible := by
      cases mode with
      | firstSolution =>
        cases hsf : searchFirst (domSize (initDoms m) + 1) m.constrs (initDoms m) with
        | none => simp [solve, solveValid, hv, hsf]
        | some a => simp [solve, solveValid, hv, hsf]
      | allSolutions =>
        cases he : (search (domSize (initDoms m) + 1) m.constrs (initDoms m)).isEmpty with
        | true => simp [solve, solveValid, hv, he]
        | false => simp [solve, solveValid, hv, he]
      | optMax =>
        cases hsb : searchBB (domSize (initDoms m) + 1) m.constrs
            ((m.objective).getD []) (initDoms m) none with
        | none => simp [solve, solveValid, hv, hsb]
        | some p => simp [solve, solveValid, hv, hsb]
      | optMin =>
        cases hsb : searchBB (domSize (initDoms m) + 1) m.constrs
            (((m.objective).getD []).map (fun t => (-t.1, t.2))) (initDoms m) none with
        | none => simp [solve, solveValid, hv, hsb]
        | some p => simp [solve, solveValid, hv, hsb]
    refine ⟨⟨fun hst => ?_, fun hf => absurd hf (by simp [hv])⟩, fun _ => hnorm⟩
    rcases hnorm with h | h | h <;> rw [hst] at h <;> simp at h
  · have hst : (solve m mode).status = Status.modelInvalid := by
      simp [solve, hv]
    exact ⟨⟨fun _ => by simpa using hv, fun _ => hst⟩,
      fun hvt => absurd hvt hv⟩

theorem claim_C7_witness :
    (solve xyzModel Mode.firstSolution).status = Status.modelInvalid ↔
      validModel xyzModel = false :=
  (claim_C7 xyzModel Mode.firstSolution).1

/-- C8: The search engine's transition relation is deterministic, so any two
complete runs from the same start state under the same constraint list visit
the same sequence of states — in particular the same search nodes and the
same emitted solution lists. -/
theorem claim_C8 (cs : List Constr) (s : EngineState)
    (tr1 tr2 : List EngineState) (h1 : Run cs s tr1) (h2 : Run cs s tr2) :
    tr1 = tr2 :=
  run_unique h1 tr2 h2

theorem claim_C8_witness :
    ([EngineState.exploring [] [[0]] [], EngineState.solutionFound [] [0] [],
      EngineState.backtrack [] [[0]], EngineState.finished [[0]]] :
      List EngineState) =
    [EngineState.exploring [] [[0]] [], EngineState.solutionFound [] [0] [],
     EngineState.backtrack [] [[0]], EngineState.finished [[0]]] := by
  have hr : Run [] (EngineState.exploring [] [[0]] [])
      [EngineState.exploring [] [[0]] [], EngineState.solutionFound [] [0] [],
       EngineState.backtrack [] [[0]], EngineState.finished [[0]]] := by
    refine Run.step _ _ _
      (Step.exploreSolution [] [[0]] [] [[0]] [0] (by decide) (by decide)
        (by decide) (by intro c hc; cases hc)) ?_
    refine Run.step _ _ _ (Step.emit [] [0] []) ?_
    refine Run.step _ _ _ (Step.finish [[0]]) ?_
    exact Run.last _ (fun t ht => by cases ht)
  exact claim_C8 [] (EngineState.exploring [] [[0]] []) _ _ hr hr

/-- C9: For the model with x, y, z in {0,1,2} and constraint x ≠ y, the
recorded CP-SAT all-solutions output and the recorded Phase/NextSolution
output are permutations of each other (the same 18-element solution set,
emitted in different orders), and the engine's all-solutions output equals
the Phase enumeration exactly. -/
theorem claim_C9 :
    cpSatRecordedXyz.Perm phaseRecordedXyz ∧
    cpSatRecordedXyz ≠ phaseRecordedXyz ∧
    (solve xyzModel Mode.allSolutions).solutions = phaseRecordedXyz ∧
    cpSatRecordedXyz.length = 18 ∧ cpSatRecordedXyz.Nodup :=
  ⟨cpSat_perm_phase, cpSat_ne_phase, solve_xyz_all_eq, by decide,
   nodup_cpSatRecordedXyz⟩

end CPCore

namespace LpPart

/-- C10: For the notebook's linear program maximize 3x + y subject to
0 ≤ x ≤ 1, 0 ≤ y ≤ 2 and 0 ≤ x + y ≤ 2, the optimal objective value is 4,
attained at x = 1, y = 1, and the program has exactly 2 variables and 1
constraint. -/
theorem claim_C10 :
    (∀ x, lpFeasible simpleLp x → lpValue x simpleLp.objCoeffs ≤ 4) ∧
    lpFeasible simpleLp [1, 1] ∧
    lpValue [1, 1] simpleLp.objCoeffs = 4 ∧
    lpNumVariables simpleLp = 2 ∧ lpNumConstraints simpleLp = 1 :=
  ⟨fun _ h => simpleLp_value_le h, simpleLp_feasible_one_one,
   simpleLp_value_one_one, rfl, rfl⟩

theorem claim_C10_witness : lpValue [1, 1] simpleLp.objCoeffs ≤ 4 :=
  claim_C10.1 [1, 1] claim_C10.2.1

end LpPart
